import Mathlib

/-!
Verification development for the google-docs-parser structural segmentation
engine: a shallow embedding of the paragraph normalizer, structured text
parser, paragraph cursor, section matcher, content dispatcher, the three
content strategies (text block, list, tree) and the document driver,
together with theorems settling the specification claims.

Text is modelled as Lean `String`s; the JavaScript string primitives used by
the source (`trim`, `toLowerCase`, `split`, `indexOf`, `substring`,
`replace(/\n/g, " ")`, `join`) are embedded as character-list functions so
that every definition evaluates inside the kernel.  The stateful paragraph
cursor becomes explicit state passing: every loop of the source is a fueled
recursive function returning `Option` (with `none` meaning the fuel ran
out), and termination of the source loops is captured by theorems showing a
concrete fuel bound always suffices.
-/

namespace GDocs

/-! ## JavaScript string primitives (character-list embedding) -/

/-- Whitespace characters stripped by `String.prototype.trim` as used on the
ASCII documents this code base manipulates. -/
def isWsChar (c : Char) : Bool := c = ' ' || c = '\t' || c = '\n' || c = '\r'

/-- Strip leading and trailing whitespace from a character list. -/
def trimChars (l : List Char) : List Char :=
  ((l.dropWhile isWsChar).reverse.dropWhile isWsChar).reverse

/-- `text.trim()`. -/
def jsTrim (s : String) : String := String.mk (trimChars s.toList)

/-- ASCII lower-casing of one character (`String.prototype.toLowerCase`). -/
def jsCharToLower (c : Char) : Char :=
  if 65 ≤ c.toNat ∧ c.toNat ≤ 90 then Char.ofNat (c.toNat + 32) else c

/-- `text.toLowerCase()`. -/
def jsToLower (s : String) : String := String.mk (s.toList.map jsCharToLower)

/-- `text.replace(/\n/g, " ")`. -/
def jsReplaceNewlines (s : String) : String :=
  String.mk (s.toList.map (fun ch => if ch = '\n' then ' ' else ch))

/-- Worker for `String.prototype.split` on a non-empty separator.  The fuel
is only a structural-recursion device: one unit per consumed character, so
`l.length` fuel never runs out when `sep` is non-empty (the only way this
code base calls it). -/
def splitOnAux (sep : List Char) : Nat → List Char → List Char → List (List Char)
  | _, [], acc => [acc.reverse]
  | 0, l, acc => [acc.reverse ++ l]
  | fuel + 1, c :: rest, acc =>
    if sep.isPrefixOf (c :: rest) then
      acc.reverse :: splitOnAux sep fuel ((c :: rest).drop sep.length) []
    else splitOnAux sep fuel rest (c :: acc)

/-- `text.split(sep)` for a non-empty string separator. -/
def jsSplitOn (s sep : String) : List String :=
  (splitOnAux sep.toList s.toList.length s.toList []).map String.mk

/-- `list.join(sep)`. -/
def joinWith (sep : String) : List String → String
  | [] => ""
  | [x] => x
  | x :: xs => x ++ sep ++ joinWith sep xs

/-- Worker for `text.indexOf(pattern)`: first index at which `pat` occurs in
`hay`, counting from `i`. -/
def firstIndexFrom (pat : List Char) : List Char → Nat → Option Nat
  | [], i => if pat.isPrefixOf ([] : List Char) then some i else none
  | c :: rest, i =>
    if pat.isPrefixOf (c :: rest) then some i
    else firstIndexFrom pat rest (i + 1)

/-- `text.indexOf(pattern)`, with `none` for the JavaScript `-1`. -/
def strIndexOf (text pattern : String) : Option Nat :=
  firstIndexFrom pattern.toList text.toList 0

/-- `text.substring(0, i)`. -/
def strTake (text : String) (i : Nat) : String := String.mk (text.toList.take i)

/-- `text.substring(i)`. -/
def strDrop (text : String) (i : Nat) : String := String.mk (text.toList.drop i)

/-- JavaScript truthiness of an optional string: `some s` with `s` non-empty. -/
def truthyStr : Option String → Option String
  | some s => if s = "" then none else some s
  | none => none

/-! ## Data model (src/types.ts, src/constants.ts) -/

/-- The parsed value universe: strings, arrays, `{key, value}` pairs,
fixed-field records and tree nodes `{title, content}`. -/
inductive Value where
  | str (s : String) : Value
  | arr (items : List Value) : Value
  | keyed (key : String) (value : List String) : Value
  | record (fields : List (String × String)) : Value
  | node (title : Value) (content : List Value) : Value

/-- Line-parsing configuration (`Schema` in types.ts).  Optional fields model
the optional TypeScript properties; JavaScript truthiness is applied at use
sites exactly where the source applies it. -/
structure Schema where
  delimiter : Option String
  keys : Option (List String)
  keyDelimiter : Option String
  isFlatten : Option Bool
deriving DecidableEq

/-- Heading configuration (`Title` in types.ts): a `Schema` plus the output
key and the heading style that identifies the title. -/
structure Title extends Schema where
  name : Option String
  namedStyleType : Option String
deriving DecidableEq

mutual
/-- Content descriptor (`Content` in types.ts): a flat list or a nested tree. -/
inductive Content where
  | list (schema : Schema) : Content
  | tree (node : Node) : Content
/-- One level of the tree hierarchy (`Node` in types.ts). -/
inductive Node where
  | mk (title : Title) (content : Option Content) : Node
end

/-- The node's heading configuration. -/
def Node.title : Node → Title
  | .mk t _ => t

/-- The node's optional content descriptor. -/
def Node.content : Node → Option Content
  | .mk _ c => c

/-- A top-level section of the document (`Section` in types.ts). -/
structure Section where
  title : Title
  content : Option Content

/-- The root parse configuration (`ParseSchema` in types.ts). -/
structure ParseSchema where
  sections : List Section

/-- One paragraph element, carrying `el.textRun?.content`. -/
structure ParagraphElement where
  content : Option String
deriving DecidableEq

/-- A raw document paragraph (`docs_v1.Schema$Paragraph` as used here): its
elements and, when a `paragraphStyle` object is present, the optional
`namedStyleType` inside it. -/
structure RawParagraph where
  elements : List ParagraphElement
  paragraphStyle : Option (Option String)
deriving DecidableEq

/-- constants.ts: the closed set of recognized heading-like styles. -/
def VALID_NAMED_STYLES : List String :=
  ["HEADING_1", "HEADING_2", "HEADING_3", "HEADING_4",
   "HEADING_5", "HEADING_6", "TITLE", "SUBTITLE"]

/-! ## utils.ts -/

/-- utils.ts `extractParagraphText`: join all `textRun` contents, trim, and
normalize newlines to spaces. -/
def extractParagraphText (paragraph : RawParagraph) : String :=
  jsReplaceNewlines (jsTrim
    ((paragraph.elements.map (fun el => el.content.getD "")).foldl
      (fun a b => a ++ b) ""))

/-- utils.ts `hasNamedStyle`: `false` on a falsy style argument, otherwise
strict equality with `paragraph.paragraphStyle?.namedStyleType`. -/
def hasNamedStyle (paragraph : RawParagraph) (namedStyleType : Option String) : Bool :=
  match namedStyleType with
  | none => false
  | some s =>
    if s = "" then false
    else
      match paragraph.paragraphStyle with
      | none => false
      | some inner => inner = some s

/-- utils.ts `getParagraphNamedStyleType`: resolve the paragraph's normalized
style (`none` models `undefined`). -/
def getParagraphNamedStyleType (paragraph : RawParagraph) : Option String :=
  if paragraph.paragraphStyle.isNone && paragraph.elements.isEmpty then none
  else
    match paragraph.paragraphStyle with
    | none => some "NORMAL_TEXT"
    | some none => some "NORMAL_TEXT"
    | some (some nst) =>
      if nst = "" then some "NORMAL_TEXT"
      else if VALID_NAMED_STYLES.contains nst then some nst
      else none

/-- utils.ts `isNamedStyleType`: the style is one of the heading styles
(not `"NORMAL_TEXT"`, not absent). -/
def isNamedStyleType (style : Option String) : Bool :=
  match style with
  | none => false
  | some s => if s = "NORMAL_TEXT" then false else VALID_NAMED_STYLES.contains s

/-- utils.ts `splitAndTrim`: split on a delimiter, trim each item, optionally
filter out empty items. -/
def splitAndTrim (text delimiter : String) (filterEmpty : Bool) : List String :=
  if text = "" then []
  else
    let items := (jsSplitOn text delimiter).map jsTrim
    if filterEmpty then items.filter (fun t => t.length > 0) else items

/-- utils.ts `parseToKeyedList`: `"Key: V1, V2"` to `{key, value}`, falling
back to the plain text when the key delimiter is absent or at index 0. -/
def parseToKeyedList (text keyDelimiter listDelimiter : String) : Value :=
  match strIndexOf text keyDelimiter with
  | none => .str text
  | some delimiterIndex =>
    if delimiterIndex = 0 then .str text
    else
      let key := jsTrim (strTake text delimiterIndex)
      let valuePart := jsTrim (strDrop text (delimiterIndex + keyDelimiter.toList.length))
      let value := if valuePart = "" then [] else splitAndTrim valuePart listDelimiter true
      .keyed key value

/-- utils.ts `parseToFields`: map delimited values onto the given keys by
position, filling missing values with `""`. -/
def parseToFields (text : String) (keys : List String) (delimiter : String) :
    List (String × String) :=
  let values := splitAndTrim text delimiter false
  keys.enum.map (fun p =>
    match values.get? p.1 with
    | some v => (p.2, if v = "" then "" else v)
    | none => (p.2, ""))

/-- utils.ts `parseDelimitedList`: split, trim, drop empty tokens. -/
def parseDelimitedList (text delimiter : String) : List String :=
  ((jsSplitOn text delimiter).map jsTrim).filter (fun v => v.length > 0)

/-- utils.ts `parseStructuredText`: the three-tier line parser.  Priority:
keyed-list when `keyDelimiter` is truthy, fixed fields when `keys` is
non-empty, plain delimited list otherwise; the delimiter defaults to `","`. -/
def parseStructuredText (text : String) (schema : Schema) : Value :=
  let delimiter := (truthyStr schema.delimiter).getD ","
  match truthyStr schema.keyDelimiter with
  | some kd => parseToKeyedList text kd delimiter
  | none =>
    match schema.keys with
    | some ks =>
      if ks.length > 0 then .record (parseToFields text ks delimiter)
      else .arr ((parseDelimitedList text delimiter).map .str)
    | none => .arr ((parseDelimitedList text delimiter).map .str)

/-! ## section.ts: section matcher -/

/-- Worker for section.ts `getSectionTitle`: walk the section list in order,
returning the first section whose (truthy) style and name both match. -/
def findSectionTitle (paragraph : RawParagraph) (normalized : String) :
    List Section → Option String
  | [] => none
  | s :: rest =>
    match s.title.name, s.title.namedStyleType with
    | some name, some nst =>
      if name ≠ "" ∧ nst ≠ "" then
        if hasNamedStyle paragraph (some nst) ∧ normalized = jsToLower (jsTrim name) then
          some name
        else findSectionTitle paragraph normalized rest
      else findSectionTitle paragraph normalized rest
    | _, _ => findSectionTitle paragraph normalized rest

/-- section.ts `getSectionTitle`: the canonical section name matched by this
paragraph, or `none`. -/
def getSectionTitle (paragraph : RawParagraph) (text : String)
    (parseSchema : ParseSchema) : Option String :=
  findSectionTitle paragraph (jsToLower (jsTrim text)) parseSchema.sections

/-! ## cursor.ts -/

/-- cursor.ts `Paragraph`: a processed paragraph with extracted text and
normalized style. -/
structure Paragraph where
  text : String
  style : Option String
  paragraph : RawParagraph
deriving DecidableEq

/-- cursor.ts `getParagraph`: `none` when the paragraph carries no text. -/
def getParagraph (paragraph : RawParagraph) : Option Paragraph :=
  let text := extractParagraphText paragraph
  if text = "" then none
  else some { text := text, style := getParagraphNamedStyleType paragraph,
              paragraph := paragraph }

/-- cursor.ts `ParagraphCursor`, with the mutable index made explicit. -/
structure Cursor where
  paragraphList : List RawParagraph
  parseSchema : ParseSchema
  index : Nat

/-- `isEndOfDocument`: the index has reached the paragraph count. -/
def Cursor.isEndOfDocument (c : Cursor) : Bool :=
  decide (c.paragraphList.length ≤ c.index)

/-- `getCurrentParagraph`: the processed paragraph under the cursor, `none`
at the end of the document or on an empty line. -/
def Cursor.getCurrentParagraph (c : Cursor) : Option Paragraph :=
  if c.isEndOfDocument then none
  else
    match c.paragraphList.get? c.index with
    | none => none
    | some p => getParagraph p

/-- The state effect of `getNextParagraph`: step forward unless at the end. -/
def Cursor.advance (c : Cursor) : Cursor :=
  if c.isEndOfDocument then c else { c with index := c.index + 1 }

/-- `getCurrentSectionTitle`: match the current paragraph against the schema
sections. -/
def Cursor.getCurrentSectionTitle (c : Cursor) : Option String :=
  match c.getCurrentParagraph with
  | none => none
  | some info => getSectionTitle info.paragraph info.text c.parseSchema

/-- `isAtNewSection`: the current paragraph starts a schema section. -/
def Cursor.isAtNewSection (c : Cursor) : Bool :=
  c.getCurrentSectionTitle.isSome

/-- `isAtParagraphHeading`: the current paragraph carries a heading style. -/
def Cursor.isAtParagraphHeading (c : Cursor) : Bool :=
  match c.getCurrentParagraph with
  | none => false
  | some info => isNamedStyleType info.style

/-- Remaining paragraphs under the cursor; the fuel bounds and the
termination arguments are phrased with it. -/
def Cursor.remaining (c : Cursor) : Nat := c.paragraphList.length - c.index

/-! ## textBlock.ts -/

/-- textBlock.ts `parseTextBlockSection` loop: accumulate paragraph texts
until the end, a section boundary or a heading; skip empty lines.  One fuel
unit per iteration. -/
def parseTextBlockF : Nat → Cursor → List String → Option (List String × Cursor)
  | 0, _, _ => none
  | fuel + 1, c, textPartList =>
    if c.isEndOfDocument then some (textPartList, c)
    else
      match c.getCurrentParagraph with
      | none => parseTextBlockF fuel c.advance textPartList
      | some info =>
        if c.isAtNewSection then some (textPartList, c)
        else if c.isAtParagraphHeading then some (textPartList, c)
        else parseTextBlockF fuel c.advance (textPartList ++ [info.text])

/-- textBlock.ts `parseTextBlockSection`: accumulated texts joined with a
single space, plus the final cursor. -/
def parseTextBlockSection (c : Cursor) : String × Cursor :=
  match parseTextBlockF (c.remaining + 1) c [] with
  | some (textPartList, c1) => (joinWith " " textPartList, c1)
  | none => ("", c)

/-! ## list.ts -/

/-- list.ts `parseListSection` loop: parse each line with the section's
schema, splicing array values when `isFlatten` is truthy. -/
def parseListSectionF : Nat → Cursor → Schema → List Value →
    Option (List Value × Cursor)
  | 0, _, _, _ => none
  | fuel + 1, c, contentSchema, result =>
    if c.isEndOfDocument then some (result, c)
    else
      match c.getCurrentParagraph with
      | none => parseListSectionF fuel c.advance contentSchema result
      | some info =>
        if c.isAtNewSection then some (result, c)
        else if c.isAtParagraphHeading then some (result, c)
        else
          let parsed := parseStructuredText info.text contentSchema
          let result1 :=
            match contentSchema.isFlatten, parsed with
            | some true, Value.arr items => result ++ items
            | _, _ => result ++ [parsed]
          parseListSectionF fuel c.advance contentSchema result1

/-- list.ts `parseListSection`: guard on the content kind, then run the loop. -/
def parseListSection (c : Cursor) (sect : Section) : List Value × Cursor :=
  match sect.content with
  | some (Content.list contentSchema) =>
    (parseListSectionF (c.remaining + 1) c contentSchema []).getD ([], c)
  | _ => ([], c)

/-! ## tree.ts -/

/-- tree.ts `collectNodeStylesRecursive`: every (truthy) title style
appearing anywhere in the node schema. -/
def collectNodeStylesRecursive : Node → List String
  | .mk title content =>
    (match title.namedStyleType with
     | some s => if s = "" then [] else [s]
     | none => []) ++
    (match content with
     | some (Content.tree child) => collectNodeStylesRecursive child
     | _ => [])

/-- tree.ts `createNodeFromTitle`: parse the heading text through the title's
own line schema when it declares one, else keep it as a plain string. -/
def createNodeFromTitle (text : String) (titleSchema : Title) : Value :=
  let hasDelimiterSchema : Bool :=
    (truthyStr titleSchema.keyDelimiter).isSome ||
    (match titleSchema.keys with
     | some ks => decide (ks.length > 0)
     | none => false) ||
    (truthyStr titleSchema.delimiter).isSome
  if hasDelimiterSchema then
    match parseStructuredText text titleSchema.toSchema with
    | Value.arr items => Value.node (Value.arr items) []
    | Value.keyed k v => Value.node (Value.keyed k v) []
    | Value.record fields => Value.node (Value.record fields) []
    | _ => Value.node (Value.str text) []
  else Value.node (Value.str text) []

/-- tree.ts `TreeParsingAction`. -/
inductive TreeParsingAction where
  | exitSection
  | createNode
  | startChildNode
  | finishCurrentNode
  | appendDetail
deriving DecidableEq

/-- The immediate child node schema, when this level's content is tree-typed. -/
def childNodeOf (nodeSchema : Node) : Option Node :=
  match nodeSchema.content with
  | some (Content.tree child) => some child
  | _ => none

/-- tree.ts `determineTreeParsingAction`: the decision procedure for one
paragraph at one tree level. -/
def determineTreeParsingAction (paragraph : RawParagraph) (c : Cursor)
    (nodeSchema : Node) (ancestorNodeList : List Node) : TreeParsingAction :=
  let nodeTitleStyle := nodeSchema.title.namedStyleType
  let childNode := childNodeOf nodeSchema
  let isCurrentNodeTitle := hasNamedStyle paragraph nodeTitleStyle
  let isChildNodeTitle :=
    match childNode with
    | some cn => hasNamedStyle paragraph cn.title.namedStyleType
    | none => false
  let isAncestorNodeTitle :=
    ancestorNodeList.any (fun a => hasNamedStyle paragraph a.title.namedStyleType)
  let isInThisTree := isCurrentNodeTitle || isChildNodeTitle || isAncestorNodeTitle
  let isHeading := c.isAtParagraphHeading
  let isHeadingOutsideThisTree := isHeading && !isInThisTree
  let isHigherLevelHeading := isHeading && isAncestorNodeTitle
  let isSameLevelHeading := isHeading && isCurrentNodeTitle
  if c.isAtNewSection then .exitSection
  else if isCurrentNodeTitle then .createNode
  else if isChildNodeTitle then .startChildNode
  else if isHigherLevelHeading || isSameLevelHeading then .finishCurrentNode
  else if isHeadingOutsideThisTree then .exitSection
  else .appendDetail

/-- tree.ts lines 155 and 203: a heading whose (truthy) normalized style lies
outside the tree's full style set ends the tree region. -/
def treeBoundaryExit (c : Cursor) (allNodeTitleStyles : List String)
    (style : Option String) : Bool :=
  c.isAtParagraphHeading &&
    (match style with
     | some s => decide (s ≠ "") && !(allNodeTitleStyles.contains s)
     | none => false)

/-- The sibling list a frame returns: the closed siblings plus the currently
open one.  In the source the open node is already the last element of
`result` by object identity; here the two are joined on return. -/
def flushNode (result : List Value) (currentNode : Option Value) : List Value :=
  result ++ currentNode.toList

/-- The effect of one iteration of the tree.ts `parseTreeNode` loop on the
frame state: return the siblings (`done`, cursor unmoved), advance with an
updated frame state (`continueAdvance`), or recurse into the child level
(`descend`, cursor unmoved). -/
inductive TreeStep where
  | done (out : List Value) : TreeStep
  | continueAdvance (result : List Value) (currentNode : Option Value) : TreeStep
  | descend (t : Value) (content : List Value) (childNodeSchema : Node) : TreeStep

/-- The body of one iteration of the tree.ts `parseTreeNode` loop, branch for
branch: the two early boundary checks, then the `switch` over
`determineTreeParsingAction`.  `result` holds the closed siblings,
`currentNode` the currently open one (the source mutates the last pushed
element in place). -/
def treeStep (c : Cursor) (nodeSchema : Node) (ancestorNodeList : List Node)
    (allNodeTitleStyles : List String) (result : List Value)
    (currentNode : Option Value) : TreeStep :=
  if c.isEndOfDocument then .done (flushNode result currentNode)
  else
    match c.getCurrentParagraph with
    | none => .continueAdvance result currentNode
    | some info =>
      if c.isAtNewSection then .done (flushNode result currentNode)
      else if treeBoundaryExit c allNodeTitleStyles info.style then
        .done (flushNode result currentNode)
      else
        match determineTreeParsingAction info.paragraph c nodeSchema ancestorNodeList with
        | .exitSection => .done (flushNode result currentNode)
        | .createNode =>
          .continueAdvance (flushNode result currentNode)
            (some (createNodeFromTitle info.text nodeSchema.title))
        | .startChildNode =>
          match currentNode, childNodeOf nodeSchema with
          | some (Value.node t content), some childNodeSchema =>
            .descend t content childNodeSchema
          | _, _ => .continueAdvance result currentNode
        | .finishCurrentNode =>
          match currentNode with
          | some _ => .done (flushNode result currentNode)
          | none => .continueAdvance result currentNode
        | .appendDetail =>
          if (childNodeOf nodeSchema).isSome then .continueAdvance result currentNode
          else
            match currentNode with
            | some (Value.node t content) =>
              .continueAdvance result
                (some (Value.node t (content ++ [Value.str (jsTrim info.text)])))
            | _ => .continueAdvance result currentNode

/-- tree.ts `parseTreeNode`: the recursive level parser, iterating `treeStep`.
On `descend` the child frame runs from the same cursor and its siblings are
spliced into the open node's content.  One fuel unit per iteration or
recursive descent; `none` means the fuel ran out. -/
def parseTreeNodeF : Nat → Cursor → Node → List Node → List String →
    List Value → Option Value → Option (List Value × Cursor)
  | 0, _, _, _, _, _, _ => none
  | fuel + 1, c, nodeSchema, ancestorNodeList, allNodeTitleStyles, result, currentNode =>
    match treeStep c nodeSchema ancestorNodeList allNodeTitleStyles result currentNode with
    | .done out => some (out, c)
    | .continueAdvance result1 currentNode1 =>
      parseTreeNodeF fuel c.advance nodeSchema ancestorNodeList allNodeTitleStyles
        result1 currentNode1
    | .descend t content childNodeSchema =>
      match parseTreeNodeF fuel c childNodeSchema (nodeSchema :: ancestorNodeList)
          allNodeTitleStyles [] none with
      | none => none
      | some (children, c1) =>
        parseTreeNodeF fuel c1 nodeSchema ancestorNodeList allNodeTitleStyles
          result (some (Value.node t (content ++ children)))

/-- Nesting depth of a node schema. -/
def treeDepth : Node → Nat
  | .mk _ content =>
    match content with
    | some (Content.tree child) => treeDepth child + 1
    | _ => 0

/-- Sufficient fuel for `parseTreeNodeF`: each paragraph is re-offered to at
most one frame per nesting level, so `(remaining + 1) * (depth + 1)`
iterations cover the whole run. -/
def treeFuel (c : Cursor) (nodeSchema : Node) : Nat :=
  (c.remaining + 1) * (treeDepth nodeSchema + 1)

/-- tree.ts `parseTreeNode` with the sufficient fuel supplied. -/
def parseTreeNode (c : Cursor) (nodeSchema : Node) (ancestorNodeList : List Node)
    (allNodeTitleStyles : List String) : List Value × Cursor :=
  (parseTreeNodeF (treeFuel c nodeSchema) c nodeSchema ancestorNodeList
    allNodeTitleStyles [] none).getD ([], c)

/-- tree.ts `parseTreeSection` scan loop: skip forward until the root node
style, a section boundary, or a heading outside the tree. -/
def parseTreeScanF : Nat → Cursor → Node → List String → Option (List Value × Cursor)
  | 0, _, _, _ => none
  | fuel + 1, c, nodeSchema, allNodeTitleStyles =>
    if c.isEndOfDocument then some ([], c)
    else
      match c.getCurrentParagraph with
      | none => parseTreeScanF fuel c.advance nodeSchema allNodeTitleStyles
      | some info =>
        if c.isAtNewSection then some ([], c)
        else if treeBoundaryExit c allNodeTitleStyles info.style then some ([], c)
        else if hasNamedStyle info.paragraph nodeSchema.title.namedStyleType then
          some (parseTreeNode c nodeSchema [] allNodeTitleStyles)
        else parseTreeScanF fuel c.advance nodeSchema allNodeTitleStyles

/-- tree.ts `parseTreeSection`: guard on the content kind, then scan. -/
def parseTreeSection (c : Cursor) (sect : Section)
    (allNodeTitleStyles : List String) : List Value × Cursor :=
  match sect.content with
  | some (Content.tree nodeSchema) =>
    (parseTreeScanF (c.remaining + 1) c nodeSchema allNodeTitleStyles).getD ([], c)
  | _ => ([], c)

/-! ## section.ts: content dispatcher, and the document driver -/

/-- section.ts `parseSectionContent`: dispatch on the section's content kind. -/
def parseSectionContent (c : Cursor) (sect : Section) : Value × Cursor :=
  match sect.content with
  | none =>
    let r := parseTextBlockSection c
    (Value.str r.1, r.2)
  | some (Content.tree nodeSchema) =>
    let allNodeTitleStyles := collectNodeStylesRecursive nodeSchema
    let r := parseTreeSection c sect allNodeTitleStyles
    (Value.arr r.1, r.2)
  | some (Content.list _) =>
    let r := parseListSection c sect
    (Value.arr r.1, r.2)

/-- JavaScript object assignment `result[key] = v` on an insertion-ordered
record: replace in place when the key exists, append otherwise. -/
def setKey : List (String × Value) → String → Value → List (String × Value)
  | [], k, v => [(k, v)]
  | (k0, v0) :: rest, k, v =>
    if k0 = k then (k, v) :: rest else (k0, v0) :: setKey rest k v

/-- Record lookup on the insertion-ordered result mapping. -/
def lookupKey : List (String × Value) → String → Option Value
  | [], _ => none
  | (k0, v0) :: rest, k => if k0 = k then some v0 else lookupKey rest k

/-- The driver loop of `parseDocument` (edge/parser.ts): resolve a section
title, advance past it, dispatch the content strategy and assign the parsed
value under the section name; otherwise step forward. -/
def parseDocumentF : Nat → Cursor → List (String × Value) →
    Option (List (String × Value))
  | 0, _, _ => none
  | fuel + 1, c, result =>
    if c.isEndOfDocument then some result
    else
      match c.getCurrentSectionTitle with
      | some currentSectionTitle =>
        match c.parseSchema.sections.find?
            (fun s => decide (s.title.name = some currentSectionTitle)) with
        | some sect =>
          let c1 := c.advance
          let r := parseSectionContent c1 sect
          parseDocumentF fuel r.2 (setKey result currentSectionTitle r.1)
        | none => parseDocumentF fuel c.advance result
      | none => parseDocumentF fuel c.advance result

/-- `parseDocument`: run the driver over the paragraph sequence with the
sufficient fuel. -/
def parseDocument (paragraphList : List RawParagraph)
    (parseSchema : ParseSchema) : List (String × Value) :=
  let c : Cursor :=
    { paragraphList := paragraphList, parseSchema := parseSchema, index := 0 }
  (parseDocumentF (c.remaining + 1) c []).getD []


/-! ## Auxiliary definitions for the specification statements -/

/-- Cursor evolution invariant: the index never decreases and the wrapped
paragraph list and schema never change. -/
def CursorLe (c c1 : Cursor) : Prop :=
  c.index ≤ c1.index ∧ c1.paragraphList = c.paragraphList ∧ c1.parseSchema = c.parseSchema

/-- The specification's notion of a section match: the paragraph's style tag
equals the section's title style **and** the trimmed, case-folded texts are
equal (a section missing its name or style matches nothing; a present but
empty name could only match an empty paragraph text, which the cursor never
surfaces). -/
def sectionMatchesB (info : Paragraph) (s : Section) : Bool :=
  hasNamedStyle info.paragraph s.title.namedStyleType &&
  (match s.title.name with
   | some name =>
     decide (name ≠ "") && decide (jsToLower (jsTrim info.text) = jsToLower (jsTrim name))
   | none => false)

/-! ## Concrete fixtures used by the witnesses and counterexamples -/

/-- A raw paragraph with one text run and the given (optional) style object. -/
def mkP (t : String) (sty : Option (Option String)) : RawParagraph := ⟨[⟨some t⟩], sty⟩

/-- A normal-text paragraph. -/
def normalP (t : String) : RawParagraph := mkP t (some (some "NORMAL_TEXT"))

/-- A HEADING_1 paragraph. -/
def h1P (t : String) : RawParagraph := mkP t (some (some "HEADING_1"))

/-- A HEADING_3 paragraph. -/
def h3P (t : String) : RawParagraph := mkP t (some (some "HEADING_3"))

/-- A HEADING_4 paragraph. -/
def h4P (t : String) : RawParagraph := mkP t (some (some "HEADING_4"))

/-- An empty paragraph (no elements, no style). -/
def emptyP : RawParagraph := ⟨[], none⟩

/-- A schema with no sections. -/
def emptySchemaEx : ParseSchema := ⟨[]⟩

/-- An H4 leaf node schema. -/
def h4NodeEx : Node := .mk ⟨⟨none, none, none, none⟩, none, some "HEADING_4"⟩ none

/-- An H3 node schema with tree-typed H4 children. -/
def h3NodeEx : Node := .mk ⟨⟨none, none, none, none⟩, none, some "HEADING_3"⟩
  (some (.tree h4NodeEx))

/-- An H3 node schema with no content descriptor. -/
def h3OnlyEx : Node := .mk ⟨⟨none, none, none, none⟩, none, some "HEADING_3"⟩ none

/-- A cursor at position 0 over the given paragraphs, with no schema sections. -/
def curEx (ps : List RawParagraph) : Cursor := ⟨ps, emptySchemaEx, 0⟩

/-- A list section with `isFlatten := true`. -/
def listSectFlatEx : Section :=
  ⟨⟨⟨some ",", none, none, some true⟩, some "skills", some "HEADING_2"⟩,
   some (.list ⟨some ",", none, none, some true⟩)⟩

/-- A list section with `isFlatten := false`. -/
def listSectNoFlatEx : Section :=
  ⟨⟨⟨some ",", none, none, some false⟩, some "skills", some "HEADING_2"⟩,
   some (.list ⟨some ",", none, none, some false⟩)⟩

/-- A schema with one text-block section titled "Next" at HEADING_1. -/
def tbSchemaEx : ParseSchema :=
  ⟨[⟨⟨⟨none, none, none, none⟩, some "Next", some "HEADING_1"⟩, none⟩]⟩

/-- A schema with one text-block section titled "Info" at HEADING_1. -/
def dupSchemaEx : ParseSchema :=
  ⟨[⟨⟨⟨none, none, none, none⟩, some "Info", some "HEADING_1"⟩, none⟩]⟩

/-- A section schema whose title is missing its name. -/
def incompleteSectEx : Section :=
  ⟨⟨⟨none, none, none, none⟩, none, some "HEADING_1"⟩, none⟩

/-! ## Cursor lemmas -/

theorem advance_paragraphList (c : Cursor) : c.advance.paragraphList = c.paragraphList := by
  unfold Cursor.advance; split <;> rfl

theorem advance_parseSchema (c : Cursor) : c.advance.parseSchema = c.parseSchema := by
  unfold Cursor.advance; split <;> rfl

theorem index_le_advance (c : Cursor) : c.index ≤ c.advance.index := by
  unfold Cursor.advance; split
  · exact le_rfl
  · exact Nat.le_succ _

theorem advance_index_of_not_end {c : Cursor} (h : c.isEndOfDocument = false) :
    c.advance.index = c.index + 1 := by
  unfold Cursor.advance
  rw [h]
  rfl

theorem not_end_of_getCurrent {c : Cursor} {info : Paragraph}
    (h : c.getCurrentParagraph = some info) : c.isEndOfDocument = false := by
  unfold Cursor.getCurrentParagraph at h
  by_cases he : c.isEndOfDocument = true
  · rw [if_pos he] at h; cases h
  · exact Bool.not_eq_true _ ▸ (by simpa using he)

theorem index_lt_of_not_end {c : Cursor} (h : c.isEndOfDocument = false) :
    c.index < c.paragraphList.length := by
  unfold Cursor.isEndOfDocument at h
  simpa using Nat.lt_of_not_le (by simpa using h)

theorem remaining_advance {c : Cursor} (h : c.isEndOfDocument = false) :
    c.advance.remaining + 1 = c.remaining := by
  have h1 := advance_index_of_not_end h
  have h2 := index_lt_of_not_end h
  unfold Cursor.remaining
  rw [advance_paragraphList, h1]
  omega

theorem cursorLe_refl (c : Cursor) : CursorLe c c := ⟨le_rfl, rfl, rfl⟩

theorem cursorLe_trans {a b c : Cursor} (h1 : CursorLe a b) (h2 : CursorLe b c) :
    CursorLe a c :=
  ⟨le_trans h1.1 h2.1, h2.2.1.trans h1.2.1, h2.2.2.trans h1.2.2⟩

theorem cursorLe_advance (c : Cursor) : CursorLe c c.advance :=
  ⟨index_le_advance c, advance_paragraphList c, advance_parseSchema c⟩

theorem cursorLe_advance_left {c c1 : Cursor} (h : CursorLe c.advance c1) : CursorLe c c1 :=
  cursorLe_trans (cursorLe_advance c) h

theorem cursorLe_remaining {c c1 : Cursor} (h : CursorLe c c1) :
    c1.remaining ≤ c.remaining := by
  have h1 := h.1
  unfold Cursor.remaining
  rw [h.2.1]
  omega

/-! ## Text block lemmas -/

theorem parseTextBlockF_le : ∀ f c parts out c1,
    parseTextBlockF f c parts = some (out, c1) → CursorLe c c1 := by
  intro f
  induction f with
  | zero => intro c parts out c1 h; simp [parseTextBlockF] at h
  | succ f ih =>
    intro c parts out c1 h
    by_cases hend : c.isEndOfDocument = true
    · simp only [parseTextBlockF, hend, if_true] at h
      injection h with h2
      cases h2
      exact cursorLe_refl _
    · replace hend : c.isEndOfDocument = false := by simpa using hend
      cases hpar : c.getCurrentParagraph with
      | none =>
        simp only [parseTextBlockF, hend, hpar, Bool.false_eq_true, if_false] at h
        exact cursorLe_advance_left (ih _ _ _ _ h)
      | some info =>
        by_cases hns : c.isAtNewSection = true
        · simp only [parseTextBlockF, hend, hpar, hns, Bool.false_eq_true, if_false, if_true] at h
          injection h with h2
          cases h2
          exact cursorLe_refl _
        · replace hns : c.isAtNewSection = false := by simpa using hns
          by_cases hh : c.isAtParagraphHeading = true
          · simp only [parseTextBlockF, hend, hpar, hns, hh, Bool.false_eq_true, if_false,
              if_true] at h
            injection h with h2
            cases h2
            exact cursorLe_refl _
          · replace hh : c.isAtParagraphHeading = false := by simpa using hh
            simp only [parseTextBlockF, hend, hpar, hns, hh, Bool.false_eq_true, if_false] at h
            exact cursorLe_advance_left (ih _ _ _ _ h)

theorem parseTextBlockF_fuelSucc : ∀ f c parts r,
    parseTextBlockF f c parts = some r → parseTextBlockF (f + 1) c parts = some r := by
  intro f
  induction f with
  | zero => intro c parts r h; simp [parseTextBlockF] at h
  | succ f ih =>
    intro c parts r h
    by_cases hend : c.isEndOfDocument = true
    · simp only [parseTextBlockF, hend, if_true] at h ⊢
      exact h
    · replace hend : c.isEndOfDocument = false := by simpa using hend
      cases hpar : c.getCurrentParagraph with
      | none =>
        simp only [parseTextBlockF, hend, hpar, Bool.false_eq_true, if_false] at h ⊢
        exact ih _ _ _ h
      | some info =>
        by_cases hns : c.isAtNewSection = true
        · simp only [parseTextBlockF, hend, hpar, hns, Bool.false_eq_true, if_false, if_true] at h ⊢
          exact h
        · replace hns : c.isAtNewSection = false := by simpa using hns
          by_cases hh : c.isAtParagraphHeading = true
          · simp only [parseTextBlockF, hend, hpar, hns, hh, Bool.false_eq_true, if_false,
              if_true] at h ⊢
            exact h
          · replace hh : c.isAtParagraphHeading = false := by simpa using hh
            simp only [parseTextBlockF, hend, hpar, hns, hh, Bool.false_eq_true, if_false] at h ⊢
            exact ih _ _ _ h

theorem parseTextBlockF_fuel_le : ∀ f f' c parts r, f ≤ f' →
    parseTextBlockF f c parts = some r → parseTextBlockF f' c parts = some r := by
  intro f f' c parts r hle h
  induction hle with
  | refl => exact h
  | step _ ih => exact parseTextBlockF_fuelSucc _ _ _ _ ih

theorem parseTextBlockF_suff : ∀ f c parts, c.remaining < f →
    (parseTextBlockF f c parts).isSome = true := by
  intro f
  induction f with
  | zero => intro c parts h; omega
  | succ f ih =>
    intro c parts hf
    by_cases hend : c.isEndOfDocument = true
    · simp only [parseTextBlockF, hend, if_true, Option.isSome_some]
    · replace hend : c.isEndOfDocument = false := by simpa using hend
      have hrem := remaining_advance hend
      cases hpar : c.getCurrentParagraph with
      | none =>
        simp only [parseTextBlockF, hend, hpar, Bool.false_eq_true, if_false]
        exact ih _ _ (by omega)
      | some info =>
        by_cases hns : c.isAtNewSection = true
        · simp only [parseTextBlockF, hend, hpar, hns, Bool.false_eq_true, if_false, if_true,
            Option.isSome_some]
        · replace hns : c.isAtNewSection = false := by simpa using hns
          by_cases hh : c.isAtParagraphHeading = true
          · simp only [parseTextBlockF, hend, hpar, hns, hh, Bool.false_eq_true, if_false, if_true,
              Option.isSome_some]
          · replace hh : c.isAtParagraphHeading = false := by simpa using hh
            simp only [parseTextBlockF, hend, hpar, hns, hh, Bool.false_eq_true, if_false]
            exact ih _ _ (by omega)


/-! ## Tree strategy lemmas -/

theorem treeDepth_child {n cn : Node} (h : childNodeOf n = some cn) :
    treeDepth n = treeDepth cn + 1 := by
  cases n with
  | mk t content =>
    cases content with
    | none => simp [childNodeOf, Node.content] at h
    | some cont =>
      cases cont with
      | list s => simp [childNodeOf, Node.content] at h
      | tree child =>
        simp only [childNodeOf, Node.content] at h
        injection h with h
        subst h
        rfl

theorem treeFuel_pos (c : Cursor) (n : Node) : 1 ≤ treeFuel c n := by
  unfold treeFuel
  exact Nat.one_le_iff_ne_zero.mpr (Nat.mul_ne_zero (Nat.succ_ne_zero _) (Nat.succ_ne_zero _))

theorem treeFuel_advance {c : Cursor} (n : Node) (h : c.isEndOfDocument = false) :
    treeFuel c.advance n + (treeDepth n + 1) = treeFuel c n := by
  unfold treeFuel
  have h1 := remaining_advance h
  rw [← h1]
  ring

theorem treeFuel_child {c : Cursor} {n cn : Node} (h : childNodeOf n = some cn) :
    treeFuel c cn + (c.remaining + 1) = treeFuel c n := by
  unfold treeFuel
  rw [treeDepth_child h]
  ring

theorem treeFuel_mono_rem {c c1 : Cursor} (n : Node) (h : c1.remaining ≤ c.remaining) :
    treeFuel c1 n ≤ treeFuel c n := by
  unfold treeFuel
  exact Nat.mul_le_mul_right _ (by omega)

theorem parseTreeNodeF_succ_eq (f : Nat) (c : Cursor) (n : Node) (anc : List Node)
    (styles : List String) (res : List Value) (cur : Option Value) :
    parseTreeNodeF (f + 1) c n anc styles res cur =
      match treeStep c n anc styles res cur with
      | .done out => some (out, c)
      | .continueAdvance result1 currentNode1 =>
        parseTreeNodeF f c.advance n anc styles result1 currentNode1
      | .descend t content childNodeSchema =>
        match parseTreeNodeF f c childNodeSchema (n :: anc) styles [] none with
        | none => none
        | some (children, c1) =>
          parseTreeNodeF f c1 n anc styles res (some (Value.node t (content ++ children))) := rfl

theorem parseTreeNodeF_step_done {c : Cursor} {n : Node} {anc : List Node}
    {styles : List String} {res : List Value} {cur : Option Value} {out : List Value}
    (f : Nat) (hstep : treeStep c n anc styles res cur = .done out) :
    parseTreeNodeF (f + 1) c n anc styles res cur = some (out, c) := by
  rw [parseTreeNodeF_succ_eq, hstep]

theorem parseTreeNodeF_step_advance {c : Cursor} {n : Node} {anc : List Node}
    {styles : List String} {res res1 : List Value} {cur cur1 : Option Value}
    (f : Nat) (hstep : treeStep c n anc styles res cur = .continueAdvance res1 cur1) :
    parseTreeNodeF (f + 1) c n anc styles res cur =
      parseTreeNodeF f c.advance n anc styles res1 cur1 := by
  rw [parseTreeNodeF_succ_eq, hstep]

theorem parseTreeNodeF_step_descend {c : Cursor} {n : Node} {anc : List Node}
    {styles : List String} {res : List Value} {cur : Option Value} {t : Value}
    {content : List Value} {child : Node}
    (f : Nat) (hstep : treeStep c n anc styles res cur = .descend t content child) :
    parseTreeNodeF (f + 1) c n anc styles res cur =
      match parseTreeNodeF f c child (n :: anc) styles [] none with
      | none => none
      | some (children, c1) =>
        parseTreeNodeF f c1 n anc styles res (some (Value.node t (content ++ children))) := by
  rw [parseTreeNodeF_succ_eq, hstep]

theorem parseTreeNodeF_le : ∀ f c n anc styles res cur out c1,
    parseTreeNodeF f c n anc styles res cur = some (out, c1) → CursorLe c c1 := by
  intro f
  induction f with
  | zero => intro c n anc styles res cur out c1 h; simp [parseTreeNodeF] at h
  | succ f ih =>
    intro c n anc styles res cur out c1 h
    cases hstep : treeStep c n anc styles res cur with
    | done out1 =>
      rw [parseTreeNodeF_step_done f hstep] at h
      injection h with h2
      cases h2
      exact cursorLe_refl _
    | continueAdvance res1 cur1 =>
      rw [parseTreeNodeF_step_advance f hstep] at h
      exact cursorLe_advance_left (ih _ _ _ _ _ _ _ _ h)
    | descend t content childNodeSchema =>
      rw [parseTreeNodeF_step_descend f hstep] at h
      cases hrec : parseTreeNodeF f c childNodeSchema (n :: anc) styles [] none with
      | none => rw [hrec] at h; cases h
      | some pr =>
        obtain ⟨children, c1x⟩ := pr
        rw [hrec] at h
        exact cursorLe_trans (ih _ _ _ _ _ _ _ _ hrec) (ih _ _ _ _ _ _ _ _ h)

theorem parseTreeNodeF_fuelSucc : ∀ f c n anc styles res cur r,
    parseTreeNodeF f c n anc styles res cur = some r →
    parseTreeNodeF (f + 1) c n anc styles res cur = some r := by
  intro f
  induction f with
  | zero => intro c n anc styles res cur r h; simp [parseTreeNodeF] at h
  | succ f ih =>
    intro c n anc styles res cur r h
    cases hstep : treeStep c n anc styles res cur with
    | done out1 =>
      rw [parseTreeNodeF_step_done f hstep] at h
      rw [parseTreeNodeF_step_done (f + 1) hstep]
      exact h
    | continueAdvance res1 cur1 =>
      rw [parseTreeNodeF_step_advance f hstep] at h
      rw [parseTreeNodeF_step_advance (f + 1) hstep]
      exact ih _ _ _ _ _ _ _ h
    | descend t content childNodeSchema =>
      rw [parseTreeNodeF_step_descend f hstep] at h
      rw [parseTreeNodeF_step_descend (f + 1) hstep]
      cases hrec : parseTreeNodeF f c childNodeSchema (n :: anc) styles [] none with
      | none => rw [hrec] at h; cases h
      | some pr =>
        obtain ⟨children, c1x⟩ := pr
        rw [hrec] at h
        rw [ih _ _ _ _ _ _ _ hrec]
        exact ih _ _ _ _ _ _ _ h

theorem parseTreeNodeF_fuel_le : ∀ f f' c n anc styles res cur r, f ≤ f' →
    parseTreeNodeF f c n anc styles res cur = some r →
    parseTreeNodeF f' c n anc styles res cur = some r := by
  intro f f' c n anc styles res cur r hle h
  induction hle with
  | refl => exact h
  | step _ ih => exact parseTreeNodeF_fuelSucc _ _ _ _ _ _ _ _ ih

theorem determine_startChild {p : RawParagraph} {c : Cursor} {n : Node} {anc : List Node}
    (h : determineTreeParsingAction p c n anc = .startChildNode) :
    c.isAtNewSection = false ∧ hasNamedStyle p n.title.namedStyleType = false ∧
    ∃ cn, childNodeOf n = some cn ∧ hasNamedStyle p cn.title.namedStyleType = true := by
  simp only [determineTreeParsingAction] at h
  split at h
  · cases h
  · split at h
    · cases h
    · split at h
      · rename_i hns hcur hchild
        refine ⟨by simpa using hns, by simpa using hcur, ?_⟩
        cases hch : childNodeOf n with
        | none => rw [hch] at hchild; cases hchild
        | some cn => rw [hch] at hchild; exact ⟨cn, rfl, hchild⟩
      · split at h
        · cases h
        · split at h
          · cases h
          · cases h

theorem treeStep_descend {c : Cursor} {n : Node} {anc : List Node} {styles : List String}
    {res : List Value} {cur : Option Value} {t : Value} {content : List Value} {child : Node}
    (h : treeStep c n anc styles res cur = .descend t content child) :
    childNodeOf n = some child ∧ cur = some (Value.node t content) ∧
    ∃ info, c.getCurrentParagraph = some info ∧ c.isAtNewSection = false ∧
      treeBoundaryExit c styles info.style = false ∧
      hasNamedStyle info.paragraph child.title.namedStyleType = true := by
  unfold treeStep at h
  split at h
  · cases h
  · split at h
    · cases h
    · rename_i info hpar
      split at h
      · cases h
      · rename_i hns
        split at h
        · cases h
        · rename_i hbd
          split at h
          · cases h
          · cases h
          · rename_i hdet
            split at h
            · rename_i tv cv chv heq
              injection h with h1 h2 h3
              subst h1; subst h2; subst h3
              obtain ⟨_, _, cn, hch2, hcn⟩ := determine_startChild hdet
              rw [heq] at hch2
              injection hch2 with hcheq
              subst hcheq
              exact ⟨heq, rfl, info, hpar, by simpa using hns, by simpa using hbd, hcn⟩
            · cases h
          · split at h
            · cases h
            · cases h
          · split at h
            · cases h
            · split at h
              · cases h
              · cases h


theorem treeStep_continue_not_end {c : Cursor} {n : Node} {anc : List Node}
    {styles : List String} {res res1 : List Value} {cur cur1 : Option Value}
    (h : treeStep c n anc styles res cur = .continueAdvance res1 cur1) :
    c.isEndOfDocument = false := by
  unfold treeStep at h
  split at h
  · cases h
  · rename_i hend; simpa using hend

theorem treeStep_create (res : List Value) (cur : Option Value) (anc : List Node)
    {c : Cursor} {info : Paragraph} {n : Node} {styles : List String}
    (hpar : c.getCurrentParagraph = some info)
    (hns : c.isAtNewSection = false)
    (hbd : treeBoundaryExit c styles info.style = false)
    (hcur : hasNamedStyle info.paragraph n.title.namedStyleType = true) :
    treeStep c n anc styles res cur =
      .continueAdvance (flushNode res cur) (some (createNodeFromTitle info.text n.title)) := by
  have hend := not_end_of_getCurrent hpar
  have hdet : determineTreeParsingAction info.paragraph c n anc = .createNode := by
    simp only [determineTreeParsingAction, hns, hcur, Bool.false_eq_true, if_false, if_true]
  simp only [treeStep, hend, hpar, hns, hbd, hdet, Bool.false_eq_true, if_false, if_true]

theorem parseTreeNodeF_progress {f : Nat} {c c1 : Cursor} {child : Node} {anc : List Node}
    {styles : List String} {out : List Value} {info : Paragraph}
    (hpar : c.getCurrentParagraph = some info)
    (hns : c.isAtNewSection = false)
    (hbd : treeBoundaryExit c styles info.style = false)
    (hcn : hasNamedStyle info.paragraph child.title.namedStyleType = true)
    (h : parseTreeNodeF f c child anc styles [] none = some (out, c1)) :
    c.index + 1 ≤ c1.index := by
  cases f with
  | zero => simp [parseTreeNodeF] at h
  | succ f =>
    have hstep := treeStep_create [] none anc hpar hns hbd hcn
    rw [parseTreeNodeF_step_advance f hstep] at h
    have hle := (parseTreeNodeF_le _ _ _ _ _ _ _ _ _ h).1
    have hidx := advance_index_of_not_end (not_end_of_getCurrent hpar)
    omega

theorem treeFuel_succ_rem {c c1 : Cursor} (n : Node) (h : c1.remaining + 1 ≤ c.remaining) :
    treeFuel c1 n + (treeDepth n + 1) ≤ treeFuel c n := by
  unfold treeFuel
  have h2 : (c1.remaining + 1 + 1) * (treeDepth n + 1) ≤ (c.remaining + 1) * (treeDepth n + 1) :=
    Nat.mul_le_mul_right _ (by omega)
  calc (c1.remaining + 1) * (treeDepth n + 1) + (treeDepth n + 1)
      = (c1.remaining + 1 + 1) * (treeDepth n + 1) := by ring
    _ ≤ _ := h2

theorem parseTreeNodeF_suff : ∀ f c n anc styles res cur, treeFuel c n ≤ f →
    (parseTreeNodeF f c n anc styles res cur).isSome = true := by
  intro f
  induction f with
  | zero =>
    intro c n anc styles res cur hf
    have := treeFuel_pos c n
    omega
  | succ f ih =>
    intro c n anc styles res cur hf
    cases hstep : treeStep c n anc styles res cur with
    | done out => rw [parseTreeNodeF_step_done f hstep]; rfl
    | continueAdvance res1 cur1 =>
      rw [parseTreeNodeF_step_advance f hstep]
      have hend := treeStep_continue_not_end hstep
      have harith := treeFuel_advance n hend
      exact ih _ _ _ _ _ _ (by omega)
    | descend t content child =>
      rw [parseTreeNodeF_step_descend f hstep]
      obtain ⟨hch, hcur, info, hpar, hns, hbd, hcn⟩ := treeStep_descend hstep
      have hend := not_end_of_getCurrent hpar
      have hcf : treeFuel c child + (c.remaining + 1) = treeFuel c n := treeFuel_child hch
      have hchild := ih c child (n :: anc) styles [] none (by omega)
      cases hrec : parseTreeNodeF f c child (n :: anc) styles [] none with
      | none => rw [hrec] at hchild; cases hchild
      | some pr =>
        obtain ⟨children, c1⟩ := pr
        have hprog : c.index + 1 ≤ c1.index := parseTreeNodeF_progress hpar hns hbd hcn hrec
        have hle := parseTreeNodeF_le _ _ _ _ _ _ _ _ _ hrec
        have hrem : c1.remaining + 1 ≤ c.remaining := by
          have e1 : c1.paragraphList = c.paragraphList := hle.2.1
          have e2 := index_lt_of_not_end hend
          unfold Cursor.remaining
          rw [e1]
          omega
        have harith := treeFuel_succ_rem n hrem
        exact ih c1 n anc styles res (some (Value.node t (content ++ children))) (by omega)

theorem parseTreeNodeF_stable : ∀ f c n anc styles res cur, treeFuel c n ≤ f →
    parseTreeNodeF f c n anc styles res cur =
      parseTreeNodeF (treeFuel c n) c n anc styles res cur := by
  intro f c n anc styles res cur hf
  have h1 := parseTreeNodeF_suff (treeFuel c n) c n anc styles res cur le_rfl
  cases hx : parseTreeNodeF (treeFuel c n) c n anc styles res cur with
  | none => rw [hx] at h1; cases h1
  | some r => rw [parseTreeNodeF_fuel_le _ _ _ _ _ _ _ _ _ hf hx]


/-! ## List strategy lemmas -/

theorem parseListSectionF_le : ∀ f c sch res out c1,
    parseListSectionF f c sch res = some (out, c1) → CursorLe c c1 := by
  intro f
  induction f with
  | zero => intro c sch res out c1 h; simp [parseListSectionF] at h
  | succ f ih =>
    intro c sch res out c1 h
    by_cases hend : c.isEndOfDocument = true
    · simp only [parseListSectionF, hend, if_true] at h
      injection h with h2
      cases h2
      exact cursorLe_refl _
    · replace hend : c.isEndOfDocument = false := by simpa using hend
      cases hpar : c.getCurrentParagraph with
      | none =>
        simp only [parseListSectionF, hend, hpar, Bool.false_eq_true, if_false] at h
        exact cursorLe_advance_left (ih _ _ _ _ _ h)
      | some info =>
        by_cases hns : c.isAtNewSection = true
        · simp only [parseListSectionF, hend, hpar, hns, Bool.false_eq_true, if_false, if_true] at h
          injection h with h2
          cases h2
          exact cursorLe_refl _
        · replace hns : c.isAtNewSection = false := by simpa using hns
          by_cases hh : c.isAtParagraphHeading = true
          · simp only [parseListSectionF, hend, hpar, hns, hh, Bool.false_eq_true, if_false,
              if_true] at h
            injection h with h2
            cases h2
            exact cursorLe_refl _
          · replace hh : c.isAtParagraphHeading = false := by simpa using hh
            simp only [parseListSectionF, hend, hpar, hns, hh, Bool.false_eq_true, if_false] at h
            exact cursorLe_advance_left (ih _ _ _ _ _ h)

theorem parseListSectionF_fuelSucc : ∀ f c sch res r,
    parseListSectionF f c sch res = some r → parseListSectionF (f + 1) c sch res = some r := by
  intro f
  induction f with
  | zero => intro c sch res r h; simp [parseListSectionF] at h
  | succ f ih =>
    intro c sch res r h
    by_cases hend : c.isEndOfDocument = true
    · simp only [parseListSectionF, hend, if_true] at h ⊢
      exact h
    · replace hend : c.isEndOfDocument = false := by simpa using hend
      cases hpar : c.getCurrentParagraph with
      | none =>
        simp only [parseListSectionF, hend, hpar, Bool.false_eq_true, if_false] at h ⊢
        exact ih _ _ _ _ h
      | some info =>
        by_cases hns : c.isAtNewSection = true
        · simp only [parseListSectionF, hend, hpar, hns, Bool.false_eq_true, if_false, if_true] at h ⊢
          exact h
        · replace hns : c.isAtNewSection = false := by simpa using hns
          by_cases hh : c.isAtParagraphHeading = true
          · simp only [parseListSectionF, hend, hpar, hns, hh, Bool.false_eq_true, if_false,
              if_true] at h ⊢
            exact h
          · replace hh : c.isAtParagraphHeading = false := by simpa using hh
            simp only [parseListSectionF, hend, hpar, hns, hh, Bool.false_eq_true, if_false] at h ⊢
            exact ih _ _ _ _ h

theorem parseListSectionF_fuel_le : ∀ f f' c sch res r, f ≤ f' →
    parseListSectionF f c sch res = some r → parseListSectionF f' c sch res = some r := by
  intro f f' c sch res r hle h
  induction hle with
  | refl => exact h
  | step _ ih => exact parseListSectionF_fuelSucc _ _ _ _ _ ih

theorem parseListSectionF_suff : ∀ f c sch res, c.remaining < f →
    (parseListSectionF f c sch res).isSome = true := by
  intro f
  induction f with
  | zero => intro c sch res h; omega
  | succ f ih =>
    intro c sch res hf
    by_cases hend : c.isEndOfDocument = true
    · simp only [parseListSectionF, hend, if_true, Option.isSome_some]
    · replace hend : c.isEndOfDocument = false := by simpa using hend
      have hrem := remaining_advance hend
      cases hpar : c.getCurrentParagraph with
      | none =>
        simp only [parseListSectionF, hend, hpar, Bool.false_eq_true, if_false]
        exact ih _ _ _ (by omega)
      | some info =>
        by_cases hns : c.isAtNewSection = true
        · simp only [parseListSectionF, hend, hpar, hns, Bool.false_eq_true, if_false, if_true,
            Option.isSome_some]
        · replace hns : c.isAtNewSection = false := by simpa using hns
          by_cases hh : c.isAtParagraphHeading = true
          · simp only [parseListSectionF, hend, hpar, hns, hh, Bool.false_eq_true, if_false, if_true,
              Option.isSome_some]
          · replace hh : c.isAtParagraphHeading = false := by simpa using hh
            simp only [parseListSectionF, hend, hpar, hns, hh, Bool.false_eq_true, if_false]
            exact ih _ _ _ (by omega)

/-! ## Tree wrapper and scan lemmas -/

theorem parseTreeNode_le (c : Cursor) (n : Node) (anc : List Node) (styles : List String) :
    CursorLe c (parseTreeNode c n anc styles).2 := by
  unfold parseTreeNode
  cases hx : parseTreeNodeF (treeFuel c n) c n anc styles [] none with
  | none => exact cursorLe_refl c
  | some r =>
    obtain ⟨out, c1⟩ := r
    simpa using parseTreeNodeF_le _ _ _ _ _ _ _ _ _ hx

theorem parseTreeScanF_le : ∀ f c n styles out c1,
    parseTreeScanF f c n styles = some (out, c1) → CursorLe c c1 := by
  intro f
  induction f with
  | zero => intro c n styles out c1 h; simp [parseTreeScanF] at h
  | succ f ih =>
    intro c n styles out c1 h
    by_cases hend : c.isEndOfDocument = true
    · simp only [parseTreeScanF, hend, if_true] at h
      injection h with h2
      cases h2
      exact cursorLe_refl _
    · replace hend : c.isEndOfDocument = false := by simpa using hend
      cases hpar : c.getCurrentParagraph with
      | none =>
        simp only [parseTreeScanF, hend, hpar, Bool.false_eq_true, if_false] at h
        exact cursorLe_advance_left (ih _ _ _ _ _ h)
      | some info =>
        by_cases hns : c.isAtNewSection = true
        · simp only [parseTreeScanF, hend, hpar, hns, Bool.false_eq_true, if_false, if_true] at h
          injection h with h2
          cases h2
          exact cursorLe_refl _
        · replace hns : c.isAtNewSection = false := by simpa using hns
          by_cases hbd : treeBoundaryExit c styles info.style = true
          · simp only [parseTreeScanF, hend, hpar, hns, hbd, Bool.false_eq_true, if_false,
              if_true] at h
            injection h with h2
            cases h2
            exact cursorLe_refl _
          · replace hbd : treeBoundaryExit c styles info.style = false := by simpa using hbd
            by_cases hroot : hasNamedStyle info.paragraph n.title.namedStyleType = true
            · simp only [parseTreeScanF, hend, hpar, hns, hbd, hroot, Bool.false_eq_true, if_false,
                if_true] at h
              injection h with h2
              have h3 := parseTreeNode_le c n [] styles
              rw [h2] at h3
              simpa using h3
            · replace hroot : hasNamedStyle info.paragraph n.title.namedStyleType = false := by
                simpa using hroot
              simp only [parseTreeScanF, hend, hpar, hns, hbd, hroot, Bool.false_eq_true,
                if_false] at h
              exact cursorLe_advance_left (ih _ _ _ _ _ h)

theorem parseTreeScanF_fuelSucc : ∀ f c n styles r,
    parseTreeScanF f c n styles = some r → parseTreeScanF (f + 1) c n styles = some r := by
  intro f
  induction f with
  | zero => intro c n styles r h; simp [parseTreeScanF] at h
  | succ f ih =>
    intro c n styles r h
    by_cases hend : c.isEndOfDocument = true
    · simp only [parseTreeScanF, hend, if_true] at h ⊢
      exact h
    · replace hend : c.isEndOfDocument = false := by simpa using hend
      cases hpar : c.getCurrentParagraph with
      | none =>
        simp only [parseTreeScanF, hend, hpar, Bool.false_eq_true, if_false] at h ⊢
        exact ih _ _ _ _ h
      | some info =>
        by_cases hns : c.isAtNewSection = true
        · simp only [parseTreeScanF, hend, hpar, hns, Bool.false_eq_true, if_false, if_true] at h ⊢
          exact h
        · replace hns : c.isAtNewSection = false := by simpa using hns
          by_cases hbd : treeBoundaryExit c styles info.style = true
          · simp only [parseTreeScanF, hend, hpar, hns, hbd, Bool.false_eq_true, if_false,
              if_true] at h ⊢
            exact h
          · replace hbd : treeBoundaryExit c styles info.style = false := by simpa using hbd
            by_cases hroot : hasNamedStyle info.paragraph n.title.namedStyleType = true
            · simp only [parseTreeScanF, hend, hpar, hns, hbd, hroot, Bool.false_eq_true, if_false,
                if_true] at h ⊢
              exact h
            · replace hroot : hasNamedStyle info.paragraph n.title.namedStyleType = false := by
                simpa using hroot
              simp only [parseTreeScanF, hend, hpar, hns, hbd, hroot, Bool.false_eq_true,
                if_false] at h ⊢
              exact ih _ _ _ _ h

theorem parseTreeScanF_fuel_le : ∀ f f' c n styles r, f ≤ f' →
    parseTreeScanF f c n styles = some r → parseTreeScanF f' c n styles = some r := by
  intro f f' c n styles r hle h
  induction hle with
  | refl => exact h
  | step _ ih => exact parseTreeScanF_fuelSucc _ _ _ _ _ ih

theorem parseTreeScanF_suff : ∀ f c n styles, c.remaining < f →
    (parseTreeScanF f c n styles).isSome = true := by
  intro f
  induction f with
  | zero => intro c n styles h; omega
  | succ f ih =>
    intro c n styles hf
    by_cases hend : c.isEndOfDocument = true
    · simp only [parseTreeScanF, hend, if_true, Option.isSome_some]
    · replace hend : c.isEndOfDocument = false := by simpa using hend
      have hrem := remaining_advance hend
      cases hpar : c.getCurrentParagraph with
      | none =>
        simp only [parseTreeScanF, hend, hpar, Bool.false_eq_true, if_false]
        exact ih _ _ _ (by omega)
      | some info =>
        by_cases hns : c.isAtNewSection = true
        · simp only [parseTreeScanF, hend, hpar, hns, Bool.false_eq_true, if_false, if_true,
            Option.isSome_some]
        · replace hns : c.isAtNewSection = false := by simpa using hns
          by_cases hbd : treeBoundaryExit c styles info.style = true
          · simp only [parseTreeScanF, hend, hpar, hns, hbd, Bool.false_eq_true, if_false, if_true,
              Option.isSome_some]
          · replace hbd : treeBoundaryExit c styles info.style = false := by simpa using hbd
            by_cases hroot : hasNamedStyle info.paragraph n.title.namedStyleType = true
            · simp only [parseTreeScanF, hend, hpar, hns, hbd, hroot, Bool.false_eq_true, if_false,
                if_true, Option.isSome_some]
            · replace hroot : hasNamedStyle info.paragraph n.title.namedStyleType = false := by
                simpa using hroot
              simp only [parseTreeScanF, hend, hpar, hns, hbd, hroot, Bool.false_eq_true, if_false]
              exact ih _ _ _ (by omega)

/-! ## Wrapper and dispatcher monotonicity -/

theorem parseTextBlockSection_le (c : Cursor) : CursorLe c (parseTextBlockSection c).2 := by
  unfold parseTextBlockSection
  cases hx : parseTextBlockF (c.remaining + 1) c [] with
  | none => exact cursorLe_refl c
  | some r =>
    obtain ⟨parts, c1⟩ := r
    simpa using parseTextBlockF_le _ _ _ _ _ hx

theorem getD_cursorLe {c : Cursor} {o : Option (List Value × Cursor)}
    (h : ∀ out c1, o = some (out, c1) → CursorLe c c1) :
    CursorLe c ((o.getD ([], c)).2) := by
  cases o with
  | none => exact cursorLe_refl c
  | some pr =>
    obtain ⟨out, c1⟩ := pr
    simpa using h _ _ rfl

theorem parseListSection_le (c : Cursor) (sect : Section) :
    CursorLe c (parseListSection c sect).2 := by
  cases hc : sect.content with
  | none => simpa [parseListSection, hc] using cursorLe_refl c
  | some cont =>
    cases cont with
    | tree n => simpa [parseListSection, hc] using cursorLe_refl c
    | list sch =>
      simpa [parseListSection, hc] using
        getD_cursorLe (fun out c1 h => parseListSectionF_le _ _ _ _ _ _ h)

theorem parseTreeSection_le (c : Cursor) (sect : Section) (styles : List String) :
    CursorLe c (parseTreeSection c sect styles).2 := by
  cases hc : sect.content with
  | none => simpa [parseTreeSection, hc] using cursorLe_refl c
  | some cont =>
    cases cont with
    | list sch => simpa [parseTreeSection, hc] using cursorLe_refl c
    | tree n =>
      simpa [parseTreeSection, hc] using
        getD_cursorLe (fun out c1 h => parseTreeScanF_le _ _ _ _ _ _ h)

theorem parseSectionContent_le (c : Cursor) (sect : Section) :
    CursorLe c (parseSectionContent c sect).2 := by
  unfold parseSectionContent
  cases hc : sect.content with
  | none => simpa using parseTextBlockSection_le c
  | some cont =>
    cases cont with
    | tree n =>
      have h := parseTreeSection_le c sect (collectNodeStylesRecursive n)
      simpa [hc] using h
    | list sch =>
      have h := parseListSection_le c sect
      simpa [hc] using h


/-! ## Document driver lemmas -/

theorem getCurrentSectionTitle_some {c : Cursor} {t : String}
    (h : c.getCurrentSectionTitle = some t) :
    ∃ info, c.getCurrentParagraph = some info := by
  unfold Cursor.getCurrentSectionTitle at h
  cases hpar : c.getCurrentParagraph with
  | none => rw [hpar] at h; cases h
  | some info => exact ⟨info, rfl⟩

theorem parseDocumentF_fuelSucc : ∀ f c res r,
    parseDocumentF f c res = some r → parseDocumentF (f + 1) c res = some r := by
  intro f
  induction f with
  | zero => intro c res r h; simp [parseDocumentF] at h
  | succ f ih =>
    intro c res r h
    by_cases hend : c.isEndOfDocument = true
    · simp only [parseDocumentF, hend, if_true] at h ⊢
      exact h
    · replace hend : c.isEndOfDocument = false := by simpa using hend
      cases hst : c.getCurrentSectionTitle with
      | none =>
        simp only [parseDocumentF, hend, hst, Bool.false_eq_true, if_false] at h ⊢
        exact ih _ _ _ h
      | some title =>
        cases hfind : c.parseSchema.sections.find?
            (fun s => decide (s.title.name = some title)) with
        | none =>
          simp only [parseDocumentF, hend, hst, hfind, Bool.false_eq_true, if_false] at h ⊢
          exact ih _ _ _ h
        | some sect =>
          simp only [parseDocumentF, hend, hst, hfind, Bool.false_eq_true, if_false] at h ⊢
          exact ih _ _ _ h

theorem parseDocumentF_fuel_le : ∀ f f' c res r, f ≤ f' →
    parseDocumentF f c res = some r → parseDocumentF f' c res = some r := by
  intro f f' c res r hle h
  induction hle with
  | refl => exact h
  | step _ ih => exact parseDocumentF_fuelSucc _ _ _ _ ih

theorem parseDocumentF_suff : ∀ f c res, c.remaining < f →
    (parseDocumentF f c res).isSome = true := by
  intro f
  induction f with
  | zero => intro c res h; omega
  | succ f ih =>
    intro c res hf
    by_cases hend : c.isEndOfDocument = true
    · simp only [parseDocumentF, hend, if_true, Option.isSome_some]
    · replace hend : c.isEndOfDocument = false := by simpa using hend
      have hrem := remaining_advance hend
      cases hst : c.getCurrentSectionTitle with
      | none =>
        simp only [parseDocumentF, hend, hst, Bool.false_eq_true, if_false]
        exact ih _ _ (by omega)
      | some title =>
        cases hfind : c.parseSchema.sections.find?
            (fun s => decide (s.title.name = some title)) with
        | none =>
          simp only [parseDocumentF, hend, hst, hfind, Bool.false_eq_true, if_false]
          exact ih _ _ (by omega)
        | some sect =>
          simp only [parseDocumentF, hend, hst, hfind, Bool.false_eq_true, if_false]
          have hle := parseSectionContent_le c.advance sect
          have hr := cursorLe_remaining hle
          exact ih _ _ (by omega)


/-! ## Section matcher lemmas -/

theorem findSectionTitle_find? (info : Paragraph) :
    ∀ l : List Section,
      findSectionTitle info.paragraph (jsToLower (jsTrim info.text)) l =
        (l.find? (sectionMatchesB info)).bind (fun s => s.title.name) := by
  intro l
  induction l with
  | nil => rfl
  | cons s rest ih =>
    cases hname : s.title.name with
    | none =>
      have hb : sectionMatchesB info s = false := by
        simp [sectionMatchesB, hname]
      rw [List.find?_cons_of_neg _ (by simp [hb])]
      simpa [findSectionTitle, hname] using ih
    | some name =>
      cases hnst : s.title.namedStyleType with
      | none =>
        have hb : sectionMatchesB info s = false := by
          simp [sectionMatchesB, hnst, hasNamedStyle]
        rw [List.find?_cons_of_neg _ (by simp [hb])]
        simpa [findSectionTitle, hname, hnst] using ih
      | some nst =>
        by_cases hne : name = ""
        · have hb : sectionMatchesB info s = false := by
            simp [sectionMatchesB, hname, hne]
          rw [List.find?_cons_of_neg _ (by simp [hb])]
          simpa [findSectionTitle, hname, hnst, hne] using ih
        · by_cases hnste : nst = ""
          · have hb : sectionMatchesB info s = false := by
              simp [sectionMatchesB, hnst, hnste, hasNamedStyle]
            rw [List.find?_cons_of_neg _ (by simp [hb])]
            simpa [findSectionTitle, hname, hnst, hnste] using ih
          · by_cases hsty : hasNamedStyle info.paragraph (some nst) = true
            · by_cases htxt :
                  jsToLower (jsTrim info.text) = jsToLower (jsTrim name)
              · have hb : sectionMatchesB info s = true := by
                  simp [sectionMatchesB, hname, hnst, hne, htxt, hsty]
                rw [List.find?_cons_of_pos _ (by simp [hb])]
                simp [findSectionTitle, hname, hnst, hne, hnste, hsty, htxt]
              · have hb : sectionMatchesB info s = false := by
                  simp [sectionMatchesB, hname, hnst, htxt]
                rw [List.find?_cons_of_neg _ (by simp [hb])]
                simpa [findSectionTitle, hname, hnst, hne, hnste, hsty, htxt] using ih
            · replace hsty : hasNamedStyle info.paragraph (some nst) = false := by
                simpa using hsty
              have hb : sectionMatchesB info s = false := by
                simp [sectionMatchesB, hnst, hsty]
              rw [List.find?_cons_of_neg _ (by simp [hb])]
              simpa [findSectionTitle, hname, hnst, hne, hnste, hsty] using ih

theorem getCurrentSectionTitle_eq (c : Cursor) :
    c.getCurrentSectionTitle =
      match c.getCurrentParagraph with
      | none => none
      | some info =>
        (c.parseSchema.sections.find? (sectionMatchesB info)).bind (fun s => s.title.name) := by
  unfold Cursor.getCurrentSectionTitle
  cases hpar : c.getCurrentParagraph with
  | none => rfl
  | some info => exact findSectionTitle_find? info c.parseSchema.sections

theorem sectionMatchesB_name {info : Paragraph} {s : Section}
    (h : sectionMatchesB info s = true) :
    ∃ name, s.title.name = some name ∧ name ≠ "" := by
  unfold sectionMatchesB at h
  cases hname : s.title.name with
  | none => rw [hname] at h; simp at h
  | some name =>
    rw [hname] at h
    simp only [Bool.and_eq_true, decide_eq_true_eq] at h
    exact ⟨name, rfl, h.2.1⟩

theorem findSectionTitle_some {paragraph : RawParagraph} {normalized : String} {n : String} :
    ∀ l : List Section, findSectionTitle paragraph normalized l = some n →
      ∃ s ∈ l, s.title.name = some n ∧ n ≠ "" ∧
        ∃ nst, s.title.namedStyleType = some nst ∧ nst ≠ "" := by
  intro l
  induction l with
  | nil => intro h; cases h
  | cons s rest ih =>
    intro h
    cases hname : s.title.name with
    | none =>
      rw [findSectionTitle, hname] at h
      obtain ⟨s1, hs1, hrest⟩ := ih (by
        cases hnst : s.title.namedStyleType <;> simpa [hnst] using h)
      exact ⟨s1, List.mem_cons_of_mem _ hs1, hrest⟩
    | some name =>
      cases hnst : s.title.namedStyleType with
      | none =>
        rw [findSectionTitle, hname, hnst] at h
        obtain ⟨s1, hs1, hrest⟩ := ih h
        exact ⟨s1, List.mem_cons_of_mem _ hs1, hrest⟩
      | some nst =>
        simp only [findSectionTitle, hname, hnst] at h
        by_cases hguard : name ≠ "" ∧ nst ≠ ""
        · rw [if_pos hguard] at h
          by_cases hmatch : hasNamedStyle paragraph (some nst) = true ∧
              normalized = jsToLower (jsTrim name)
          · rw [if_pos hmatch] at h
            injection h with h
            subst h
            exact ⟨s, List.mem_cons_self _ _, hname, hguard.1, nst, hnst, hguard.2⟩
          · rw [if_neg hmatch] at h
            obtain ⟨s1, hs1, hrest⟩ := ih h
            exact ⟨s1, List.mem_cons_of_mem _ hs1, hrest⟩
        · rw [if_neg hguard] at h
          obtain ⟨s1, hs1, hrest⟩ := ih h
          exact ⟨s1, List.mem_cons_of_mem _ hs1, hrest⟩

theorem findSectionTitle_skip (paragraph : RawParagraph) (normalized : String)
    (s : Section) (hs : s.title.name = none ∨ s.title.namedStyleType = none) :
    ∀ pre post : List Section,
      findSectionTitle paragraph normalized (pre ++ s :: post) =
        findSectionTitle paragraph normalized (pre ++ post) := by
  intro pre
  induction pre with
  | nil =>
    intro post
    cases hs with
    | inl h =>
      cases hnst : s.title.namedStyleType <;>
        simp [List.nil_append, findSectionTitle, h, hnst]
    | inr h =>
      cases hname : s.title.name <;>
        simp [List.nil_append, findSectionTitle, h, hname]
  | cons p rest ih =>
    intro post
    cases hname : p.title.name with
    | none =>
      simp only [List.cons_append, findSectionTitle, hname]
      exact ih post
    | some name =>
      cases hnst : p.title.namedStyleType with
      | none =>
        simp only [List.cons_append, findSectionTitle, hname, hnst]
        exact ih post
      | some nst =>
        simp only [List.cons_append, findSectionTitle, hname, hnst]
        by_cases hguard : name ≠ "" ∧ nst ≠ ""
        · rw [if_pos hguard, if_pos hguard]
          by_cases hmatch : hasNamedStyle paragraph (some nst) = true ∧
              normalized = jsToLower (jsTrim name)
          · rw [if_pos hmatch, if_pos hmatch]
          · rw [if_neg hmatch, if_neg hmatch]
            exact ih post
        · rw [if_neg hguard, if_neg hguard]
          exact ih post


/-! ## indexOf characterization -/

theorem firstIndexFrom_none_iff (pat : List Char) :
    ∀ hay k, firstIndexFrom pat hay k = none ↔ ∀ i, ¬ pat <+: List.drop i hay := by
  intro hay
  induction hay with
  | nil =>
    intro k
    unfold firstIndexFrom
    by_cases hp : pat.isPrefixOf ([] : List Char) = true
    · rw [if_pos hp]
      simp only [ List.isPrefixOf_iff_prefix] at hp
      constructor
      · intro h; cases h
      · intro h; exact absurd (by simpa using hp) (by simpa using h 0)
    · rw [if_neg hp]
      simp only [ List.isPrefixOf_iff_prefix] at hp
      constructor
      · intro _ i
        simpa [List.drop_nil] using hp
      · intro _; rfl
  | cons c rest ih =>
    intro k
    unfold firstIndexFrom
    by_cases hp : pat.isPrefixOf (c :: rest) = true
    · rw [if_pos hp]
      simp only [ List.isPrefixOf_iff_prefix] at hp
      constructor
      · intro h; cases h
      · intro h; exact absurd hp (by simpa using h 0)
    · rw [if_neg hp]
      simp only [ List.isPrefixOf_iff_prefix] at hp
      rw [ih (k + 1)]
      constructor
      · intro h i
        cases i with
        | zero => simpa using hp
        | succ j => simpa using h j
      · intro h i
        simpa using h (i + 1)

theorem firstIndexFrom_some (pat : List Char) :
    ∀ hay k i, firstIndexFrom pat hay k = some i →
      k ≤ i ∧ pat <+: List.drop (i - k) hay ∧ ∀ j < i - k, ¬ pat <+: List.drop j hay := by
  intro hay
  induction hay with
  | nil =>
    intro k i h
    unfold firstIndexFrom at h
    by_cases hp : pat.isPrefixOf ([] : List Char) = true
    · rw [if_pos hp] at h
      injection h with h
      subst h
      simp only [ List.isPrefixOf_iff_prefix] at hp
      exact ⟨le_rfl, by simpa using hp, by omega⟩
    · rw [if_neg hp] at h; cases h
  | cons c rest ih =>
    intro k i h
    unfold firstIndexFrom at h
    by_cases hp : pat.isPrefixOf (c :: rest) = true
    · rw [if_pos hp] at h
      injection h with h
      subst h
      simp only [ List.isPrefixOf_iff_prefix] at hp
      exact ⟨le_rfl, by simpa using hp, by omega⟩
    · rw [if_neg hp] at h
      simp only [ List.isPrefixOf_iff_prefix] at hp
      obtain ⟨hk, hpre, hmin⟩ := ih (k + 1) i h
      refine ⟨by omega, ?_, ?_⟩
      · have e : i - k = (i - (k + 1)) + 1 := by omega
        rw [e]
        simpa using hpre
      · intro j hj
        cases j with
        | zero => simpa using hp
        | succ j2 =>
          have : j2 < i - (k + 1) := by omega
          simpa using hmin j2 this

theorem strIndexOf_none_iff (text pattern : String) :
    strIndexOf text pattern = none ↔ ∀ i, ¬ pattern.toList <+: List.drop i text.toList := by
  unfold strIndexOf
  exact firstIndexFrom_none_iff pattern.toList text.toList 0

theorem strIndexOf_some {text pattern : String} {i : Nat}
    (h : strIndexOf text pattern = some i) :
    pattern.toList <+: List.drop i text.toList ∧
      ∀ j < i, ¬ pattern.toList <+: List.drop j text.toList := by
  unfold strIndexOf at h
  obtain ⟨_, hpre, hmin⟩ := firstIndexFrom_some pattern.toList text.toList 0 i h
  simp only [Nat.sub_zero] at hpre hmin
  exact ⟨hpre, hmin⟩

/-! ## Driver result structure -/

theorem lookupKey_setKey (m : List (String × Value)) (k : String) (v : Value) :
    lookupKey (setKey m k v) k = some v := by
  induction m with
  | nil => simp [setKey, lookupKey]
  | cons kv rest ih =>
    obtain ⟨k0, v0⟩ := kv
    by_cases hk : k0 = k
    · simp [setKey, lookupKey, hk]
    · simp only [setKey, lookupKey, hk, if_false, if_neg hk]
      exact ih

theorem lookupKey_setKey_ne {m : List (String × Value)} {k k2 : String} (v : Value)
    (h : k2 ≠ k) : lookupKey (setKey m k v) k2 = lookupKey m k2 := by
  have hne : ¬ k = k2 := fun hh => h hh.symm
  induction m with
  | nil =>
    simp only [setKey, lookupKey]
    rw [if_neg hne]
  | cons kv rest ih =>
    obtain ⟨k0, v0⟩ := kv
    by_cases hk : k0 = k
    · subst hk
      simp only [setKey, if_pos rfl, lookupKey]
      rw [if_neg hne, if_neg hne]
    · simp only [setKey, if_neg hk, lookupKey]
      by_cases hk2 : k0 = k2
      · rw [if_pos hk2, if_pos hk2]
      · rw [if_neg hk2, if_neg hk2]
        exact ih

theorem parseDocumentF_writes : ∀ f c res res',
    parseDocumentF f c res = some res' →
    ∃ writes : List (String × Value),
      res' = writes.foldl (fun m kv => setKey m kv.1 kv.2) res := by
  intro f
  induction f with
  | zero => intro c res res' h; simp [parseDocumentF] at h
  | succ f ih =>
    intro c res res' h
    by_cases hend : c.isEndOfDocument = true
    · simp only [parseDocumentF, hend, if_true] at h
      injection h with h
      exact ⟨[], h.symm⟩
    · replace hend : c.isEndOfDocument = false := by simpa using hend
      cases hst : c.getCurrentSectionTitle with
      | none =>
        simp only [parseDocumentF, hend, hst, Bool.false_eq_true, if_false] at h
        exact ih _ _ _ h
      | some title =>
        cases hfind : c.parseSchema.sections.find?
            (fun s => decide (s.title.name = some title)) with
        | none =>
          simp only [parseDocumentF, hend, hst, hfind, Bool.false_eq_true, if_false] at h
          exact ih _ _ _ h
        | some sect =>
          simp only [parseDocumentF, hend, hst, hfind, Bool.false_eq_true, if_false] at h
          obtain ⟨ws, hws⟩ := ih _ _ _ h
          exact ⟨(title, (parseSectionContent c.advance sect).1) :: ws, by simpa using hws⟩

theorem parseDocumentF_keys : ∀ f c res res' k,
    parseDocumentF f c res = some res' →
    lookupKey res' k ≠ none →
    lookupKey res k ≠ none ∨
      ∃ s ∈ c.parseSchema.sections, s.title.name = some k ∧ k ≠ "" ∧
        ∃ nst, s.title.namedStyleType = some nst ∧ nst ≠ "" := by
  intro f
  induction f with
  | zero => intro c res res' k h; simp [parseDocumentF] at h
  | succ f ih =>
    intro c res res' k h hk
    by_cases hend : c.isEndOfDocument = true
    · simp only [parseDocumentF, hend, if_true] at h
      injection h with h
      subst h
      exact Or.inl hk
    · replace hend : c.isEndOfDocument = false := by simpa using hend
      cases hst : c.getCurrentSectionTitle with
      | none =>
        simp only [parseDocumentF, hend, hst, Bool.false_eq_true, if_false] at h
        have := ih _ _ _ _ h hk
        rwa [advance_parseSchema] at this
      | some title =>
        cases hfind : c.parseSchema.sections.find?
            (fun s => decide (s.title.name = some title)) with
        | none =>
          simp only [parseDocumentF, hend, hst, hfind, Bool.false_eq_true, if_false] at h
          have := ih _ _ _ _ h hk
          rwa [advance_parseSchema] at this
        | some sect =>
          simp only [parseDocumentF, hend, hst, hfind, Bool.false_eq_true, if_false] at h
          have hcd := ih _ _ _ _ h hk
          have hps : (parseSectionContent c.advance sect).2.parseSchema = c.parseSchema := by
            rw [(parseSectionContent_le c.advance sect).2.2, advance_parseSchema]
          rw [hps] at hcd
          cases hcd with
          | inr hr => exact Or.inr hr
          | inl hl =>
            by_cases hkt : k = title
            · subst hkt
              unfold Cursor.getCurrentSectionTitle at hst
              cases hpar : c.getCurrentParagraph with
              | none => rw [hpar] at hst; cases hst
              | some info =>
                rw [hpar] at hst
                exact Or.inr (findSectionTitle_some _ hst)
            · rw [lookupKey_setKey_ne _ hkt] at hl
              exact Or.inl hl


/-! ## Claim theorems -/

theorem splitAndTrim_empty (d : String) (fe : Bool) : splitAndTrim "" d fe = [] := by
  simp [splitAndTrim]

/-- C3: `parseStructuredText` applies its three tiers in fixed priority:
keyed-pair parsing whenever `keyDelimiter` is (truthily) set — even when
`keys` is also set — else fixed-field parsing when `keys` is non-empty, else
plain delimited-list parsing; the line delimiter defaults to `","` whenever
unspecified (absent or empty).  In particular `"Company: Google, Engineer"`
with `keyDelimiter ":"`, `keys ["company","role"]`, `delimiter ","` parses as
`{ key: "Company", value: ["Google","Engineer"] }`, not a record. -/
theorem C3_thm : ∀ (text : String) (schema : Schema),
    (∀ kd, truthyStr schema.keyDelimiter = some kd →
      parseStructuredText text schema =
        parseToKeyedList text kd ((truthyStr schema.delimiter).getD ",")) ∧
    (truthyStr schema.keyDelimiter = none → ∀ ks, schema.keys = some ks → 0 < ks.length →
      parseStructuredText text schema =
        .record (parseToFields text ks ((truthyStr schema.delimiter).getD ","))) ∧
    (truthyStr schema.keyDelimiter = none → schema.keys = none →
      parseStructuredText text schema =
        .arr ((parseDelimitedList text ((truthyStr schema.delimiter).getD ",")).map .str)) ∧
    (truthyStr schema.keyDelimiter = none → ∀ ks, schema.keys = some ks → ks.length = 0 →
      parseStructuredText text schema =
        .arr ((parseDelimitedList text ((truthyStr schema.delimiter).getD ",")).map .str)) ∧
    (schema.delimiter = none ∨ schema.delimiter = some "" →
      (truthyStr schema.delimiter).getD "," = ",") ∧
    parseStructuredText "Company: Google, Engineer"
        ⟨some ",", some ["company", "role"], some ":", none⟩ =
      .keyed "Company" ["Google", "Engineer"] := by
  intro text schema
  refine ⟨?_, ?_, ?_, ?_, ?_, rfl⟩
  · intro kd hkd
    simp only [parseStructuredText, hkd]
  · intro hkd ks hks hlen
    simp only [parseStructuredText, hkd, hks]
    rw [if_pos hlen]
  · intro hkd hks
    simp only [parseStructuredText, hkd, hks]
  · intro hkd ks hks hlen
    simp only [parseStructuredText, hkd, hks]
    rw [if_neg (by omega)]
  · intro hd
    cases hd with
    | inl h => rw [h]; rfl
    | inr h => rw [h]; rfl

theorem C3_witness :
    parseStructuredText "Company: Google, Engineer"
        ⟨some ",", some ["company", "role"], some ":", none⟩ =
      parseToKeyedList "Company: Google, Engineer" ":" "," :=
  (C3_thm "Company: Google, Engineer"
    ⟨some ",", some ["company", "role"], some ":", none⟩).1 ":" rfl

/-- C4: keyed-pair fallback.  When the key delimiter has no occurrence in the
text, or its first occurrence is at index 0 (empty key), `parseToKeyedList`
returns the text unchanged as a plain string; otherwise it returns
`{key, value}` with the trimmed prefix before the first occurrence as key and
the remainder split on the line delimiter, trimmed, empty tokens dropped, as
value.  `strIndexOf` is characterized as the least occurrence index. -/
theorem C4_thm : ∀ (text kd ld : String),
    (strIndexOf text kd = none → parseToKeyedList text kd ld = .str text) ∧
    (strIndexOf text kd = some 0 → parseToKeyedList text kd ld = .str text) ∧
    (∀ i, strIndexOf text kd = some i → 0 < i →
      parseToKeyedList text kd ld =
        .keyed (jsTrim (strTake text i))
          (splitAndTrim (jsTrim (strDrop text (i + kd.toList.length))) ld true)) ∧
    (strIndexOf text kd = none ↔ ∀ i, ¬ kd.toList <+: List.drop i text.toList) ∧
    (∀ i, strIndexOf text kd = some i →
      (kd.toList <+: List.drop i text.toList) ∧
        ∀ j < i, ¬ kd.toList <+: List.drop j text.toList) := by
  intro text kd ld
  refine ⟨?_, ?_, ?_, strIndexOf_none_iff text kd, fun i h => strIndexOf_some h⟩
  · intro h
    simp only [parseToKeyedList, h]
  · intro h
    simp [parseToKeyedList, h]
  · intro i h hi
    simp only [parseToKeyedList, h]
    rw [if_neg (by omega)]
    by_cases hvp : jsTrim (strDrop text (i + kd.toList.length)) = ""
    · rw [if_pos hvp, hvp, splitAndTrim_empty]
    · rw [if_neg hvp]

theorem C4_witness :
    parseToKeyedList "no delimiter here" ":" "," = .str "no delimiter here" :=
  (C4_thm "no delimiter here" ":" ",").1 rfl


/-- C2: section matching.  The cursor reports a section boundary iff some
section of the schema matches the current paragraph on **both** the title
style tag and the trimmed, case-folded title text; sections are checked in
schema order with the first match's name returned; and the result is `none`
when the current paragraph is empty or the cursor is at the end. -/
theorem C2_thm : ∀ c : Cursor,
    (c.getCurrentParagraph = none →
      c.isAtNewSection = false ∧ c.getCurrentSectionTitle = none) ∧
    (∀ info, c.getCurrentParagraph = some info →
      c.getCurrentSectionTitle =
        (c.parseSchema.sections.find? (sectionMatchesB info)).bind (fun s => s.title.name) ∧
      (c.isAtNewSection = true ↔
        ∃ s ∈ c.parseSchema.sections, sectionMatchesB info s = true)) := by
  intro c
  constructor
  · intro h
    have h1 : c.getCurrentSectionTitle = none := by
      unfold Cursor.getCurrentSectionTitle
      rw [h]
    exact ⟨by simp [Cursor.isAtNewSection, h1], h1⟩
  · intro info hpar
    have heq : c.getCurrentSectionTitle =
        (c.parseSchema.sections.find? (sectionMatchesB info)).bind (fun s => s.title.name) := by
      rw [getCurrentSectionTitle_eq, hpar]
    refine ⟨heq, ?_⟩
    unfold Cursor.isAtNewSection
    rw [heq]
    constructor
    · intro h
      cases hf : c.parseSchema.sections.find? (sectionMatchesB info) with
      | none => rw [hf] at h; simp at h
      | some s => exact ⟨s, List.mem_of_find?_eq_some hf, List.find?_some hf⟩
    · rintro ⟨s, hmem, hB⟩
      have h1 : (c.parseSchema.sections.find? (sectionMatchesB info)).isSome :=
        List.find?_isSome.mpr ⟨s, hmem, hB⟩
      cases hf : c.parseSchema.sections.find? (sectionMatchesB info) with
      | none => rw [hf] at h1; cases h1
      | some s2 =>
        obtain ⟨name, hname, _⟩ := sectionMatchesB_name (List.find?_some hf)
        simp [hname]

theorem C2_witness :
    (curEx []).isAtNewSection = false ∧ (curEx []).getCurrentSectionTitle = none :=
  (C2_thm (curEx [])).1 rfl

/-- C9: the text block strategy accumulates the text of each non-empty
paragraph while the cursor is not at the end, not at a section boundary and
not at a heading, advancing one paragraph per iteration and skipping empty
paragraphs without appending; it stops before consuming the boundary or
heading paragraph (the returned cursor is unmoved at that point), and the
final result joins the accumulated texts with a single space (empty string
when nothing was accumulated). -/
theorem C9_thm : ∀ (fuel : Nat) (c : Cursor) (textPartList : List String),
    (c.isEndOfDocument = true →
      parseTextBlockF (fuel + 1) c textPartList = some (textPartList, c)) ∧
    (c.isEndOfDocument = false → c.getCurrentParagraph = none →
      parseTextBlockF (fuel + 1) c textPartList = parseTextBlockF fuel c.advance textPartList) ∧
    (∀ info, c.getCurrentParagraph = some info → c.isAtNewSection = true →
      parseTextBlockF (fuel + 1) c textPartList = some (textPartList, c)) ∧
    (∀ info, c.getCurrentParagraph = some info → c.isAtNewSection = false →
      c.isAtParagraphHeading = true →
      parseTextBlockF (fuel + 1) c textPartList = some (textPartList, c)) ∧
    (∀ info, c.getCurrentParagraph = some info → c.isAtNewSection = false →
      c.isAtParagraphHeading = false →
      parseTextBlockF (fuel + 1) c textPartList =
        parseTextBlockF fuel c.advance (textPartList ++ [info.text])) ∧
    (∀ parts c1, parseTextBlockF (c.remaining + 1) c [] = some (parts, c1) →
      parseTextBlockSection c = (joinWith " " parts, c1)) ∧
    joinWith " " [] = "" ∧
    parseTextBlockSection ⟨[normalP "a", emptyP, normalP "b", h1P "Next"], tbSchemaEx, 0⟩ =
      ("a b", ⟨[normalP "a", emptyP, normalP "b", h1P "Next"], tbSchemaEx, 3⟩) := by
  intro fuel c textPartList
  refine ⟨?_, ?_, ?_, ?_, ?_, ?_, rfl, rfl⟩
  · intro hend
    simp only [parseTextBlockF, hend, if_true]
  · intro hend hpar
    simp only [parseTextBlockF, hend, hpar, Bool.false_eq_true, if_false]
  · intro info hpar hns
    have hend := not_end_of_getCurrent hpar
    simp only [parseTextBlockF, hend, hpar, hns, Bool.false_eq_true, if_false, if_true]
  · intro info hpar hns hh
    have hend := not_end_of_getCurrent hpar
    simp only [parseTextBlockF, hend, hpar, hns, hh, Bool.false_eq_true, if_false, if_true]
  · intro info hpar hns hh
    have hend := not_end_of_getCurrent hpar
    simp only [parseTextBlockF, hend, hpar, hns, hh, Bool.false_eq_true, if_false]
  · intro parts c1 h
    unfold parseTextBlockSection
    rw [h]

theorem C9_witness :
    parseTextBlockF 1 (curEx []) [] = some ([], curEx []) :=
  (C9_thm 0 (curEx []) []).1 rfl

/-- C7: the list strategy parses each non-boundary, non-heading line with the
section's line schema; with `isFlatten` true an array-valued parse is spliced
element by element into the result, otherwise the parsed value is pushed as a
single item.  The lines `"Java, Kotlin"` and `"Go"` yield
`["Java","Kotlin","Go"]` with `isFlatten` true and `[["Java","Kotlin"],["Go"]]`
with `isFlatten` false. -/
theorem C7_thm : ∀ (fuel : Nat) (c : Cursor) (contentSchema : Schema) (result : List Value),
    (∀ info, c.getCurrentParagraph = some info → c.isAtNewSection = false →
      c.isAtParagraphHeading = false →
      (∀ items, contentSchema.isFlatten = some true →
        parseStructuredText info.text contentSchema = Value.arr items →
        parseListSectionF (fuel + 1) c contentSchema result =
          parseListSectionF fuel c.advance contentSchema (result ++ items)) ∧
      (contentSchema.isFlatten ≠ some true →
        parseListSectionF (fuel + 1) c contentSchema result =
          parseListSectionF fuel c.advance contentSchema
            (result ++ [parseStructuredText info.text contentSchema])) ∧
      ((∀ items, parseStructuredText info.text contentSchema ≠ Value.arr items) →
        parseListSectionF (fuel + 1) c contentSchema result =
          parseListSectionF fuel c.advance contentSchema
            (result ++ [parseStructuredText info.text contentSchema]))) ∧
    (parseListSection (curEx [normalP "Java, Kotlin", normalP "Go"]) listSectFlatEx).1 =
      [Value.str "Java", Value.str "Kotlin", Value.str "Go"] ∧
    (parseListSection (curEx [normalP "Java, Kotlin", normalP "Go"]) listSectNoFlatEx).1 =
      [Value.arr [Value.str "Java", Value.str "Kotlin"], Value.arr [Value.str "Go"]] := by
  intro fuel c contentSchema result
  refine ⟨?_, rfl, rfl⟩
  intro info hpar hns hh
  have hend := not_end_of_getCurrent hpar
  refine ⟨?_, ?_, ?_⟩
  · intro items hfl hp
    simp only [parseListSectionF, hend, hpar, hns, hh, Bool.false_eq_true, if_false, hfl, hp]
  · intro hfl
    cases hfla : contentSchema.isFlatten with
    | none =>
      cases hp : parseStructuredText info.text contentSchema <;>
        simp only [parseListSectionF, hend, hpar, hns, hh, Bool.false_eq_true, if_false,
          hfla, hp]
    | some b =>
      cases b with
      | true => exact absurd hfla hfl
      | false =>
        cases hp : parseStructuredText info.text contentSchema <;>
          simp only [parseListSectionF, hend, hpar, hns, hh, Bool.false_eq_true, if_false,
            hfla, hp]
  · intro hnoarr
    cases hp : parseStructuredText info.text contentSchema with
    | arr items => exact absurd hp (hnoarr items)
    | str s =>
      cases hfla : contentSchema.isFlatten with
      | none =>
        simp only [parseListSectionF, hend, hpar, hns, hh, Bool.false_eq_true, if_false, hfla, hp]
      | some b =>
        cases b <;>
          simp only [parseListSectionF, hend, hpar, hns, hh, Bool.false_eq_true, if_false,
            hfla, hp]
    | keyed k v =>
      cases hfla : contentSchema.isFlatten with
      | none =>
        simp only [parseListSectionF, hend, hpar, hns, hh, Bool.false_eq_true, if_false, hfla, hp]
      | some b =>
        cases b <;>
          simp only [parseListSectionF, hend, hpar, hns, hh, Bool.false_eq_true, if_false,
            hfla, hp]
    | record fields =>
      cases hfla : contentSchema.isFlatten with
      | none =>
        simp only [parseListSectionF, hend, hpar, hns, hh, Bool.false_eq_true, if_false, hfla, hp]
      | some b =>
        cases b <;>
          simp only [parseListSectionF, hend, hpar, hns, hh, Bool.false_eq_true, if_false,
            hfla, hp]
    | node t content =>
      cases hfla : contentSchema.isFlatten with
      | none =>
        simp only [parseListSectionF, hend, hpar, hns, hh, Bool.false_eq_true, if_false, hfla, hp]
      | some b =>
        cases b <;>
          simp only [parseListSectionF, hend, hpar, hns, hh, Bool.false_eq_true, if_false,
            hfla, hp]

theorem C7_witness :
    parseListSectionF 1 (curEx [normalP "Java, Kotlin", normalP "Go"])
        ⟨some ",", none, none, some true⟩ [] =
      parseListSectionF 0 (curEx [normalP "Java, Kotlin", normalP "Go"]).advance
        ⟨some ",", none, none, some true⟩ ([] ++ [Value.str "Java", Value.str "Kotlin"]) :=
  ((C7_thm 0 (curEx [normalP "Java, Kotlin", normalP "Go"])
      ⟨some ",", none, none, some true⟩ []).1
    ⟨"Java, Kotlin", none, normalP "Java, Kotlin"⟩ rfl rfl rfl).1
    [Value.str "Java", Value.str "Kotlin"] rfl rfl


theorem treeBoundaryExit_false_of_not_heading {c : Cursor}
    (styles : List String) (sty : Option String)
    (hhead : c.isAtParagraphHeading = false) :
    treeBoundaryExit c styles sty = false := by
  simp [treeBoundaryExit, hhead]

theorem determine_appendDetail {p : RawParagraph} {c : Cursor} {n : Node} {anc : List Node}
    (hns : c.isAtNewSection = false)
    (hcur : hasNamedStyle p n.title.namedStyleType = false)
    (hchild : ∀ cn, childNodeOf n = some cn → hasNamedStyle p cn.title.namedStyleType = false)
    (hanc : anc.any (fun a => hasNamedStyle p a.title.namedStyleType) = false)
    (hhead : c.isAtParagraphHeading = false) :
    determineTreeParsingAction p c n anc = .appendDetail := by
  cases hch : childNodeOf n with
  | none => simp [determineTreeParsingAction, hns, hcur, hanc, hhead, hch]
  | some cn => simp [determineTreeParsingAction, hns, hcur, hanc, hhead, hch, hchild cn hch]

theorem determine_finish {p : RawParagraph} {c : Cursor} {n : Node} {anc : List Node}
    (hns : c.isAtNewSection = false)
    (hcur : hasNamedStyle p n.title.namedStyleType = false)
    (hchild : ∀ cn, childNodeOf n = some cn → hasNamedStyle p cn.title.namedStyleType = false)
    (hanc : anc.any (fun a => hasNamedStyle p a.title.namedStyleType) = true)
    (hhead : c.isAtParagraphHeading = true) :
    determineTreeParsingAction p c n anc = .finishCurrentNode := by
  cases hch : childNodeOf n with
  | none => simp [determineTreeParsingAction, hns, hcur, hanc, hhead, hch]
  | some cn => simp [determineTreeParsingAction, hns, hcur, hanc, hhead, hch, hchild cn hch]

/-- C6: strict nesting.  An ordinary (non-heading, non-boundary) text
paragraph at a tree level is classified `appendDetail`; if the level's
content is tree-typed the line is consumed and silently discarded (the frame
state is unchanged), otherwise the trimmed line is appended to the currently
open sibling's content array, and discarded when no sibling is open yet. -/
theorem C6_thm : ∀ (fuel : Nat) (c : Cursor) (nodeSchema : Node)
    (ancestorNodeList : List Node) (allNodeTitleStyles : List String)
    (result : List Value) (currentNode : Option Value) (info : Paragraph),
    c.getCurrentParagraph = some info →
    c.isAtNewSection = false →
    c.isAtParagraphHeading = false →
    hasNamedStyle info.paragraph nodeSchema.title.namedStyleType = false →
    (∀ cn, childNodeOf nodeSchema = some cn →
      hasNamedStyle info.paragraph cn.title.namedStyleType = false) →
    ancestorNodeList.any (fun a => hasNamedStyle info.paragraph a.title.namedStyleType) = false →
    determineTreeParsingAction info.paragraph c nodeSchema ancestorNodeList = .appendDetail ∧
    ((childNodeOf nodeSchema).isSome = true →
      parseTreeNodeF (fuel + 1) c nodeSchema ancestorNodeList allNodeTitleStyles
          result currentNode =
        parseTreeNodeF fuel c.advance nodeSchema ancestorNodeList allNodeTitleStyles
          result currentNode) ∧
    (childNodeOf nodeSchema = none → ∀ t content,
      currentNode = some (Value.node t content) →
      parseTreeNodeF (fuel + 1) c nodeSchema ancestorNodeList allNodeTitleStyles
          result currentNode =
        parseTreeNodeF fuel c.advance nodeSchema ancestorNodeList allNodeTitleStyles
          result (some (Value.node t (content ++ [Value.str (jsTrim info.text)])))) ∧
    (childNodeOf nodeSchema = none → currentNode = none →
      parseTreeNodeF (fuel + 1) c nodeSchema ancestorNodeList allNodeTitleStyles
          result currentNode =
        parseTreeNodeF fuel c.advance nodeSchema ancestorNodeList allNodeTitleStyles
          result none) := by
  intro fuel c nodeSchema ancestorNodeList allNodeTitleStyles result currentNode info
    hpar hns hhead hcur hchild hanc
  have hend := not_end_of_getCurrent hpar
  have hbd := treeBoundaryExit_false_of_not_heading allNodeTitleStyles info.style hhead
  have hdet := determine_appendDetail hns hcur hchild hanc hhead
  refine ⟨hdet, ?_, ?_, ?_⟩
  · intro hcs
    have hstep : treeStep c nodeSchema ancestorNodeList allNodeTitleStyles result currentNode =
        .continueAdvance result currentNode := by
      simp only [treeStep, hend, hpar, hns, hbd, hdet, hcs, Bool.false_eq_true, if_false, if_true]
    exact parseTreeNodeF_step_advance fuel hstep
  · intro hch t content hcur2
    subst hcur2
    have hstep : treeStep c nodeSchema ancestorNodeList allNodeTitleStyles result
          (some (Value.node t content)) =
        .continueAdvance result (some (Value.node t (content ++ [Value.str (jsTrim info.text)]))) := by
      simp only [treeStep, hend, hpar, hns, hbd, hdet, hch, Option.isSome_none,
        Bool.false_eq_true, if_false]
    exact parseTreeNodeF_step_advance fuel hstep
  · intro hch hcur2
    subst hcur2
    have hstep : treeStep c nodeSchema ancestorNodeList allNodeTitleStyles result none =
        .continueAdvance result none := by
      simp only [treeStep, hend, hpar, hns, hbd, hdet, hch, Option.isSome_none,
        Bool.false_eq_true, if_false]
    exact parseTreeNodeF_step_advance fuel hstep

theorem C6_witness :
    parseTreeNodeF 1 (curEx [normalP "loose"]) h3NodeEx [] ["HEADING_3", "HEADING_4"] [] none =
      parseTreeNodeF 0 (curEx [normalP "loose"]).advance h3NodeEx []
        ["HEADING_3", "HEADING_4"] [] none :=
  ((C6_thm 0 (curEx [normalP "loose"]) h3NodeEx [] ["HEADING_3", "HEADING_4"] [] none
      ⟨"loose", none, normalP "loose"⟩ rfl rfl rfl rfl
      (fun cn hcn => by injection hcn with h; subst h; rfl) rfl).2.1) rfl

/-- C1 counterexample: a heading whose style equals the current frame's own
title style, with a sibling already open, is **not** returned unconsumed: at
`[A (H3), B (H3)]` with an H3 level schema the level parser consumes `B` and
creates a second sibling, finishing at index 2 — not the claimed return of
`[A]` with the cursor left at index 1. -/
theorem C1_counterexample :
    (parseTreeNodeF 3 (curEx [h3P "A", h3P "B"]) h3OnlyEx [] ["HEADING_3"] [] none).map
        (fun rc => (rc.1, rc.2.index)) =
      some ([Value.node (Value.str "A") [], Value.node (Value.str "B") []], 2) ∧
    (parseTreeNodeF 3 (curEx [h3P "A", h3P "B"]) h3OnlyEx [] ["HEADING_3"] [] none).map
        (fun rc => (rc.1, rc.2.index)) ≠
      some ([Value.node (Value.str "A") []], 1) := by
  have h0 :
      (parseTreeNodeF 3 (curEx [h3P "A", h3P "B"]) h3OnlyEx [] ["HEADING_3"] [] none).map
        (fun rc => (rc.1, rc.2.index)) =
      some ([Value.node (Value.str "A") [], Value.node (Value.str "B") []], 2) := rfl
  refine ⟨h0, ?_⟩
  intro h
  rw [h0] at h
  have h2 := Option.some.inj h
  have h3 := congrArg Prod.snd h2
  simp at h3

/-- C1 (amended): a heading whose style matches an **ancestor** level's title
style (and not this level's own or its direct child's) makes the level parser
return the collected siblings — the open one closed — without consuming the
paragraph, so the heading is re-examined by the enclosing frame; a heading
equal to the current level's own title style instead starts a new sibling,
consuming it.  Root nodes A (HEADING_3) with child X (HEADING_4) followed by
root node B (HEADING_3) yield A.content = [the X node] and B.content = []. -/
theorem C1_thm :
    (∀ (fuel : Nat) (c : Cursor) (nodeSchema : Node) (ancestorNodeList : List Node)
      (allNodeTitleStyles : List String) (result : List Value) (v : Value) (info : Paragraph),
      c.getCurrentParagraph = some info →
      c.isAtNewSection = false →
      treeBoundaryExit c allNodeTitleStyles info.style = false →
      hasNamedStyle info.paragraph nodeSchema.title.namedStyleType = false →
      (∀ cn, childNodeOf nodeSchema = some cn →
        hasNamedStyle info.paragraph cn.title.namedStyleType = false) →
      ancestorNodeList.any (fun a => hasNamedStyle info.paragraph a.title.namedStyleType) = true →
      c.isAtParagraphHeading = true →
      parseTreeNodeF (fuel + 1) c nodeSchema ancestorNodeList allNodeTitleStyles
          result (some v) =
        some (result ++ [v], c)) ∧
    parseTreeNode (curEx [h3P "A", h4P "X", h3P "B"]) h3NodeEx [] ["HEADING_3", "HEADING_4"] =
      ([Value.node (Value.str "A") [Value.node (Value.str "X") []],
        Value.node (Value.str "B") []],
       ⟨[h3P "A", h4P "X", h3P "B"], emptySchemaEx, 3⟩) := by
  refine ⟨?_, rfl⟩
  intro fuel c nodeSchema ancestorNodeList allNodeTitleStyles result v info
    hpar hns hbd hcur hchild hanc hhead
  have hend := not_end_of_getCurrent hpar
  have hdet := determine_finish hns hcur hchild hanc hhead
  have hstep : treeStep c nodeSchema ancestorNodeList allNodeTitleStyles result (some v) =
      .done (flushNode result (some v)) := by
    simp only [treeStep, hend, hpar, hns, hbd, hdet, Bool.false_eq_true, if_false]
  rw [parseTreeNodeF_step_done fuel hstep]
  rfl

theorem C1_witness :
    parseTreeNodeF 1 (⟨[h3P "A", h4P "X", h3P "B"], emptySchemaEx, 2⟩ : Cursor) h4NodeEx
        [h3NodeEx] ["HEADING_3", "HEADING_4"] [] (some (Value.node (Value.str "X") [])) =
      some ([] ++ [Value.node (Value.str "X") []],
        (⟨[h3P "A", h4P "X", h3P "B"], emptySchemaEx, 2⟩ : Cursor)) :=
  C1_thm.1 0 ⟨[h3P "A", h4P "X", h3P "B"], emptySchemaEx, 2⟩ h4NodeEx [h3NodeEx]
    ["HEADING_3", "HEADING_4"] [] (Value.node (Value.str "X") [])
    ⟨"B", some "HEADING_3", h3P "B"⟩ rfl rfl rfl rfl
    (fun cn hcn => by cases hcn) rfl rfl


/-- C5: termination and single pass.  Every strategy loop and the driver is a
pure, total function of its inputs: with fuel `remaining + 1` the text-block,
list, tree-scan and driver loops always complete, and the recursive tree
level parser always completes within `(remaining + 1) * (depth + 1)` fuel —
each paragraph is re-offered to at most one frame per enclosing tree level —
with the result independent of any larger fuel.  The cursor index never
decreases across any of them. -/
theorem C5_thm :
    (∀ f c parts, c.remaining < f → (parseTextBlockF f c parts).isSome = true) ∧
    (∀ f c sch res, c.remaining < f → (parseListSectionF f c sch res).isSome = true) ∧
    (∀ f c n styles, c.remaining < f → (parseTreeScanF f c n styles).isSome = true) ∧
    (∀ f c n anc styles res cur, treeFuel c n ≤ f →
      (parseTreeNodeF (treeFuel c n) c n anc styles res cur).isSome = true ∧
      parseTreeNodeF f c n anc styles res cur =
        parseTreeNodeF (treeFuel c n) c n anc styles res cur) ∧
    (∀ f c res, c.remaining < f → (parseDocumentF f c res).isSome = true) ∧
    (∀ f c n anc styles res cur out c1,
      parseTreeNodeF f c n anc styles res cur = some (out, c1) → CursorLe c c1) ∧
    (∀ c sect, CursorLe c (parseSectionContent c sect).2) := by
  refine ⟨parseTextBlockF_suff, parseListSectionF_suff, parseTreeScanF_suff, ?_,
    parseDocumentF_suff, parseTreeNodeF_le, parseSectionContent_le⟩
  intro f c n anc styles res cur hf
  exact ⟨parseTreeNodeF_suff _ _ _ _ _ _ _ le_rfl, parseTreeNodeF_stable _ _ _ _ _ _ _ hf⟩

theorem C5_witness :
    (parseTextBlockF 1 (curEx []) []).isSome = true ∧
    (parseTreeNodeF (treeFuel (curEx [h3P "A"]) h3OnlyEx) (curEx [h3P "A"]) h3OnlyEx []
        ["HEADING_3"] [] none).isSome = true :=
  ⟨C5_thm.1 1 (curEx []) [] (by decide),
   (C5_thm.2.2.2.1 (treeFuel (curEx [h3P "A"]) h3OnlyEx) (curEx [h3P "A"]) h3OnlyEx []
      ["HEADING_3"] [] none le_rfl).1⟩

/-- C8: last-write-wins.  Assigning a parsed value under a section name
replaces any earlier value for that name (`lookupKey (setKey m k v) k = some v`,
with no merging and no error); every successful driver run is exactly a fold
of such assignments, in document order, over the initial mapping; and the
concrete document `[Info, "first", Info, "second"]` parses both occurrences
and keeps only the second's content. -/
theorem C8_thm :
    (∀ m k v, lookupKey (setKey m k v) k = some v) ∧
    (∀ f c res res', parseDocumentF f c res = some res' →
      ∃ writes : List (String × Value),
        res' = writes.foldl (fun m kv => setKey m kv.1 kv.2) res) ∧
    parseDocument [h1P "Info", normalP "first", h1P "Info", normalP "second"] dupSchemaEx =
      [("Info", Value.str "second")] :=
  ⟨lookupKey_setKey, parseDocumentF_writes, rfl⟩

theorem C8_witness :
    ∃ writes : List (String × Value),
      [("Info", Value.str "second")] =
        writes.foldl (fun m kv => setKey m kv.1 kv.2) [] :=
  C8_thm.2.1 5
    ⟨[h1P "Info", normalP "first", h1P "Info", normalP "second"], dupSchemaEx, 0⟩ [] _ rfl

/-- C10: a section whose title is missing its name or its style is skipped by
section matching — deleting it anywhere in the schema never changes the
matching result, it never satisfies the section-match predicate — and every
key of a successful driver run (beyond the initial mapping) is the name of a
section that carries both a non-empty name and a non-empty style. -/
theorem C10_thm :
    (∀ paragraph normalized s, s.title.name = none ∨ s.title.namedStyleType = none →
      ∀ pre post, findSectionTitle paragraph normalized (pre ++ s :: post) =
        findSectionTitle paragraph normalized (pre ++ post)) ∧
    (∀ info s, s.title.name = none ∨ s.title.namedStyleType = none →
      sectionMatchesB info s = false) ∧
    (∀ f c res res' k, parseDocumentF f c res = some res' → lookupKey res' k ≠ none →
      lookupKey res k ≠ none ∨
        ∃ sct ∈ c.parseSchema.sections, sct.title.name = some k ∧ k ≠ "" ∧
          ∃ nst, sct.title.namedStyleType = some nst ∧ nst ≠ "") := by
  refine ⟨fun p nz s hs => findSectionTitle_skip p nz s hs, ?_, parseDocumentF_keys⟩
  intro info s hs
  cases hs with
  | inl h => simp [sectionMatchesB, h]
  | inr h => simp [sectionMatchesB, h, hasNamedStyle]

theorem C10_witness :
    findSectionTitle (h1P "Info") "info" [incompleteSectEx] =
      findSectionTitle (h1P "Info") "info" [] :=
  C10_thm.1 (h1P "Info") "info" incompleteSectEx (Or.inl rfl) [] []

end GDocs
